import Mathlib

/-!
# Verification of the shogi-ai core engine

A shallow embedding, in Lean 4, of the rule engines, move codecs, static
evaluator, negamax driver, arena and MCTS output layer of the shogi-ai
repository (two variants: animal shogi on a 3x4 board and full shogi on a
9x9 board), together with theorems settling the specified properties.

Conventions of the embedding:
* Python floats are modelled as exact rationals (all values handled by the
  evaluator and the value backup are small dyadic numbers); `float("inf")`
  and `float("-inf")` are modelled by an explicit three-case `Score` type.
* Python lists/tuples are Lean `List`s; `squares[i]` is `List.getD i none`
  (all boards built by the engine have full length, 12 or 81).
* Python `list.sort()` on a hand is `List.insertionSort` by kind index;
  since kinds comparing equal are identical, the sorted list is unique and
  any sorting algorithm produces the byte-identical result.
* `list.remove(x)` is `List.erase`: Python raises `ValueError` when `x` is
  absent, the embedding is then the identity; all uses by the engine remove
  a present element.
* Python `while` loops over a sliding ray are bounded recursions with fuel
  `NUM_SQUARES`; a ray with a nonzero direction leaves the board after at
  most 8 steps, so the fuel is never exhausted.
-/

namespace ShogiAI

/-- Players; SENTE is first (integer identity 0), GOTE second (1). -/
inductive Player where
  | sente
  | gote
deriving DecidableEq, Repr

/-- Integer identity of a player (part of the external contract). -/
def Player.val : Player → ℕ
  | .sente => 0
  | .gote => 1

/-- `Player.opponent`: 0 maps to 1 and back. -/
def Player.opponent : Player → Player
  | .sente => .gote
  | .gote => .sente

theorem Player.opponent_opponent (p : Player) : p.opponent.opponent = p := by
  cases p <;> rfl

namespace Animal

/-- Board width of animal shogi. -/
def COLS : ℕ := 3
/-- Board height of animal shogi. -/
def ROWS : ℕ := 4
/-- Number of squares (12). -/
def NUM_SQUARES : ℕ := ROWS * COLS

/-- The five animal-shogi piece kinds; `val` matches the IntEnum values. -/
inductive PieceType where
  | chick
  | giraffe
  | elephant
  | lion
  | hen
deriving DecidableEq, Repr

/-- IntEnum value of an animal piece kind. -/
def PieceType.val : PieceType → ℕ
  | .chick => 0
  | .giraffe => 1
  | .elephant => 2
  | .lion => 3
  | .hen => 4

/-- Movement deltas (row, col) from SENTE's perspective; GOTE negates rows. -/
def PIECE_MOVES : PieceType → List (ℤ × ℤ)
  | .chick => [(-1, 0)]
  | .giraffe => [(-1, 0), (1, 0), (0, -1), (0, 1)]
  | .elephant => [(-1, -1), (-1, 1), (1, -1), (1, 1)]
  | .lion => [(-1, -1), (-1, 0), (-1, 1), (0, -1), (0, 1), (1, -1), (1, 0), (1, 1)]
  | .hen => [(-1, -1), (-1, 0), (-1, 1), (0, -1), (0, 1), (1, 0)]

/-- Kinds allowed in hand (LION and HEN are excluded by the table). -/
def HAND_PIECE_TYPES : List PieceType := [.chick, .giraffe, .elephant]

/-- A piece on the animal board: kind and owner. -/
structure Piece where
  piece_type : PieceType
  owner : Player
deriving DecidableEq, Repr

/-- Immutable animal-shogi board: 12 squares (row-major) and two hands. -/
structure Board where
  squares : List (Option Piece)
  hands : List PieceType × List PieceType
deriving DecidableEq, Repr

/-- `hands[player.value]`. -/
def Board.handOf (b : Board) (p : Player) : List PieceType :=
  match p with
  | .sente => b.hands.1
  | .gote => b.hands.2

/-- Replace `hands[player.value]`. -/
def Board.setHand (b : Board) (p : Player) (h : List PieceType) : Board :=
  match p with
  | .sente => ⟨b.squares, (h, b.hands.2)⟩
  | .gote => ⟨b.squares, (b.hands.1, h)⟩

/-- The standard animal-shogi starting squares. -/
def initialSquares : List (Option Piece) :=
  [ some ⟨.giraffe, .gote⟩, some ⟨.lion, .gote⟩, some ⟨.elephant, .gote⟩,
    none, some ⟨.chick, .gote⟩, none,
    none, some ⟨.chick, .sente⟩, none,
    some ⟨.elephant, .sente⟩, some ⟨.lion, .sente⟩, some ⟨.giraffe, .sente⟩ ]

/-- The initial animal-shogi board (empty hands). -/
def initialBoard : Board := ⟨initialSquares, ([], [])⟩

/-- `Board.piece_at(row, col)`. -/
def Board.piece_at (b : Board) (row col : ℕ) : Option Piece :=
  b.squares.getD (row * COLS + col) none

/-- `Board.set_piece(row, col, piece)`: copy-on-write update. -/
def Board.set_piece (b : Board) (row col : ℕ) (piece : Option Piece) : Board :=
  ⟨b.squares.set (row * COLS + col) piece, b.hands⟩

/-- Ascending sort by kind value; models Python `list.sort()` on a hand. -/
def sortHand (h : List PieceType) : List PieceType :=
  List.insertionSort (fun a b => a.val ≤ b.val) h

/-- `Board.add_to_hand`: a captured HEN is normalised back to CHICK, the
kind is appended and the hand re-sorted.  (A captured LION is appended
as-is: the source only normalises HEN.) -/
def Board.add_to_hand (b : Board) (player : Player) (piece_type : PieceType) : Board :=
  let pt := if piece_type = .hen then .chick else piece_type
  b.setHand player (sortHand (b.handOf player ++ [pt]))

/-- `Board.remove_from_hand`: removes the first occurrence. -/
def Board.remove_from_hand (b : Board) (player : Player) (piece_type : PieceType) : Board :=
  b.setHand player ((b.handOf player).erase piece_type)

/-- `Board.find_lion`: index of the first square holding the player's lion. -/
def Board.find_lion (b : Board) (player : Player) : Option ℕ :=
  b.squares.findIdx? (fun sq =>
    match sq with
    | some piece => piece.piece_type = .lion && piece.owner = player
    | none => false)

/-- Action space of animal shogi (180). -/
def ACTION_SPACE : ℕ := 180

/-- Board moves occupy `[0, 144)`; drops start at 144. -/
def DROP_OFFSET : ℕ := ROWS * COLS * ROWS * COLS

/-- `encode_board_move`: `from_idx * 12 + to_idx`. -/
def encode_board_move (from_idx to_idx : ℕ) : ℕ :=
  from_idx * 12 + to_idx

/-- Index of a kind in `HAND_PIECE_TYPES` (`list.index`; the source raises
`ValueError` on LION/HEN, the embedding returns the list length 3). -/
def handIndex : PieceType → ℕ
  | .chick => 0
  | .giraffe => 1
  | .elephant => 2
  | _ => 3

/-- `encode_drop_move`: `144 + kind_index * 12 + to_idx`. -/
def encode_drop_move (piece_type : PieceType) (to_idx : ℕ) : ℕ :=
  DROP_OFFSET + handIndex piece_type * 12 + to_idx

/-- The decoded form of an animal-shogi action index. -/
inductive Decoded where
  | board (src dst : ℕ × ℕ)
  | drop (piece_type : PieceType) (dst : ℕ × ℕ)
deriving DecidableEq, Repr

/-- `decode_move`: dispatches on the 144 threshold. -/
def decode_move (move : ℕ) : Decoded :=
  if move < DROP_OFFSET then
    let from_idx := move / 12
    let to_idx := move % 12
    .board (from_idx / COLS, from_idx % COLS) (to_idx / COLS, to_idx % COLS)
  else
    let remainder := move - DROP_OFFSET
    let pt_index := remainder / 12
    let to_idx := remainder % 12
    .drop (HAND_PIECE_TYPES.getD pt_index .chick) (to_idx / COLS, to_idx % COLS)

/-- `_should_promote`: only a CHICK promotes, on reaching the far rank. -/
def should_promote (piece : Piece) (player : Player) (dest_row : ℕ) : Bool :=
  if piece.piece_type ≠ PieceType.chick then false
  else if player = .sente then dest_row = 0
  else dest_row = ROWS - 1

/-- Board-move generation for one occupied square (the body of the
`for dr, dc in deltas` loop of `legal_moves`). -/
def boardMovesFrom (b : Board) (player : Player) (idx : ℕ) (piece : Piece) : List ℕ :=
  let row := idx / COLS
  let col := idx % COLS
  (PIECE_MOVES piece.piece_type).flatMap (fun d =>
    let dr : ℤ := if player = .gote then -d.1 else d.1
    let dc : ℤ := d.2
    let nr : ℤ := (row : ℤ) + dr
    let nc : ℤ := (col : ℤ) + dc
    if 0 ≤ nr ∧ nr < (ROWS : ℤ) ∧ 0 ≤ nc ∧ nc < (COLS : ℤ) then
      match b.piece_at nr.toNat nc.toNat with
      | some target =>
        if target.owner = player then []
        else [encode_board_move idx (nr.toNat * COLS + nc.toNat)]
      | none => [encode_board_move idx (nr.toNat * COLS + nc.toNat)]
    else [])

/-- `legal_moves(board, player)`: board moves for every own piece, then one
drop per distinct kind in hand and empty square.  Animal shogi applies no
own-royal check filter. -/
def legal_moves (b : Board) (player : Player) : List ℕ :=
  let boardMoves :=
    b.squares.enum.flatMap (fun p =>
      match p.2 with
      | some piece => if piece.owner = player then boardMovesFrom b player p.1 piece else []
      | none => [])
  let dropMoves :=
    (b.handOf player).dedup.flatMap (fun pt =>
      (List.range NUM_SQUARES).flatMap (fun idx =>
        if b.squares.getD idx none = none then [encode_drop_move pt idx] else []))
  boardMoves ++ dropMoves

/-- `_apply_board_move`.  The source asserts that the origin is occupied;
the embedding keeps the board unchanged in that (unreachable) case. -/
def apply_board_move (b : Board) (player : Player) (move : ℕ) : Board :=
  let from_idx := move / 12
  let to_idx := move % 12
  let from_row := from_idx / COLS
  let from_col := from_idx % COLS
  let to_row := to_idx / COLS
  match b.piece_at from_row from_col with
  | none => b
  | some piece =>
    let b1 :=
      match b.squares.getD to_idx none with
      | some target => b.add_to_hand player target.piece_type
      | none => b
    let new_piece_type := if should_promote piece player to_row then PieceType.hen else piece.piece_type
    let b2 := b1.set_piece from_row from_col none
    b2.set_piece (to_idx / COLS) (to_idx % COLS) (some ⟨new_piece_type, player⟩)

/-- `_apply_drop_move`. -/
def apply_drop_move (b : Board) (player : Player) (move : ℕ) : Board :=
  let remainder := move - DROP_OFFSET
  let pt_index := remainder / 12
  let to_idx := remainder % 12
  let piece_type := HAND_PIECE_TYPES.getD pt_index .chick
  let b1 := b.remove_from_hand player piece_type
  b1.set_piece (to_idx / COLS) (to_idx % COLS) (some ⟨piece_type, player⟩)

/-- `apply_move`: dispatch on the 144 threshold. -/
def apply_move (b : Board) (player : Player) (move : ℕ) : Board :=
  if move < DROP_OFFSET then apply_board_move b player move
  else apply_drop_move b player move

/-- The animal-shogi `GameState`: board, player to move, ply count. -/
structure State where
  board : Board
  current_player : Player
  move_count : ℕ
deriving DecidableEq, Repr

/-- The initial game state. -/
def State.initial : State := ⟨initialBoard, .sente, 0⟩

/-- `legal_moves()` of a state. -/
def State.legalMoves (s : State) : List ℕ :=
  legal_moves s.board s.current_player

/-- `apply_move()`: new board, flipped player, incremented ply. -/
def State.applyMove (s : State) (move : ℕ) : State :=
  ⟨apply_move s.board s.current_player move, s.current_player.opponent, s.move_count + 1⟩

/-- `_can_capture_lion`: some legal board move (index `< 144`) of `player`
lands on `lion_idx`. -/
def State.canCaptureLion (s : State) (player : Player) (lion_idx : ℕ) : Bool :=
  (legal_moves s.board player).any (fun move => move < 144 && move % 12 = lion_idx)

/-- `winner`: lion capture first, then the try rule, then no-legal-moves. -/
def State.winner (s : State) : Option ℕ :=
  if s.board.find_lion .sente = none then some (Player.sente.opponent.val)
  else if s.board.find_lion .gote = none then some (Player.gote.opponent.val)
  else
    let prev_player := s.current_player.opponent
    let tryRule : Option ℕ :=
      match s.board.find_lion prev_player with
      | none => none
      | some lion_idx =>
        let lion_row := lion_idx / COLS
        let target_row := if prev_player = .sente then 0 else ROWS - 1
        if lion_row = target_row && !(s.canCaptureLion s.current_player lion_idx) then
          some prev_player.val
        else none
    match tryRule with
    | some w => some w
    | none =>
      if s.legalMoves.length = 0 then some s.current_player.opponent.val
      else none

/-- `is_terminal`: a winner exists or no legal move remains. -/
def State.isTerminal (s : State) : Bool :=
  s.winner ≠ none || s.legalMoves.length = 0

end Animal

namespace Full

/-- Board width of full shogi. -/
def COLS : ℕ := 9
/-- Board height of full shogi. -/
def ROWS : ℕ := 9
/-- Number of squares (81). -/
def NUM_SQUARES : ℕ := ROWS * COLS

/-- The fourteen full-shogi piece kinds; `val` matches the IntEnum values. -/
inductive PieceType where
  | pawn
  | lance
  | knight
  | silver
  | gold
  | bishop
  | rook
  | king
  | pro_pawn
  | pro_lance
  | pro_knight
  | pro_silver
  | horse
  | dragon
deriving DecidableEq, Repr

/-- IntEnum value of a full-shogi piece kind (tensor-plane identity). -/
def PieceType.val : PieceType → ℕ
  | .pawn => 0
  | .lance => 1
  | .knight => 2
  | .silver => 3
  | .gold => 4
  | .bishop => 5
  | .rook => 6
  | .king => 7
  | .pro_pawn => 8
  | .pro_lance => 9
  | .pro_knight => 10
  | .pro_silver => 11
  | .horse => 12
  | .dragon => 13

/-- `PROMOTION_MAP`: base kind to promoted kind (none for GOLD and KING). -/
def PROMOTION_MAP : PieceType → Option PieceType
  | .pawn => some .pro_pawn
  | .lance => some .pro_lance
  | .knight => some .pro_knight
  | .silver => some .pro_silver
  | .bishop => some .horse
  | .rook => some .dragon
  | _ => none

/-- `UNPROMOTION_MAP.get(pt, pt)`: promoted kind back to base, identity
otherwise. -/
def unpromote : PieceType → PieceType
  | .pro_pawn => .pawn
  | .pro_lance => .lance
  | .pro_knight => .knight
  | .pro_silver => .silver
  | .horse => .bishop
  | .dragon => .rook
  | pt => pt

/-- The seven droppable kinds, in codec order. -/
def HAND_PIECE_TYPES : List PieceType :=
  [.pawn, .lance, .knight, .silver, .gold, .bishop, .rook]

/-- One-step movement deltas from SENTE's perspective (empty list models
absence from the `STEP_MOVES` dict). -/
def STEP_MOVES : PieceType → List (ℤ × ℤ)
  | .pawn => [(-1, 0)]
  | .silver => [(-1, -1), (-1, 0), (-1, 1), (1, -1), (1, 1)]
  | .gold => [(-1, -1), (-1, 0), (-1, 1), (0, -1), (0, 1), (1, 0)]
  | .king => [(-1, -1), (-1, 0), (-1, 1), (0, -1), (0, 1), (1, -1), (1, 0), (1, 1)]
  | .pro_pawn => [(-1, -1), (-1, 0), (-1, 1), (0, -1), (0, 1), (1, 0)]
  | .pro_lance => [(-1, -1), (-1, 0), (-1, 1), (0, -1), (0, 1), (1, 0)]
  | .pro_knight => [(-1, -1), (-1, 0), (-1, 1), (0, -1), (0, 1), (1, 0)]
  | .pro_silver => [(-1, -1), (-1, 0), (-1, 1), (0, -1), (0, 1), (1, 0)]
  | _ => []

/-- The two knight jumps (SENTE perspective). -/
def KNIGHT_MOVES : List (ℤ × ℤ) := [(-2, -1), (-2, 1)]

/-- Sliding directions (empty list models absence from `SLIDE_MOVES`). -/
def SLIDE_MOVES : PieceType → List (ℤ × ℤ)
  | .lance => [(-1, 0)]
  | .bishop => [(-1, -1), (-1, 1), (1, -1), (1, 1)]
  | .rook => [(-1, 0), (1, 0), (0, -1), (0, 1)]
  | .horse => [(-1, -1), (-1, 1), (1, -1), (1, 1)]
  | .dragon => [(-1, 0), (1, 0), (0, -1), (0, 1)]
  | _ => []

/-- HORSE one-step orthogonal extras. -/
def HORSE_EXTRA_STEPS : List (ℤ × ℤ) := [(-1, 0), (1, 0), (0, -1), (0, 1)]

/-- DRAGON one-step diagonal extras. -/
def DRAGON_EXTRA_STEPS : List (ℤ × ℤ) := [(-1, -1), (-1, 1), (1, -1), (1, 1)]

/-- A piece on the full board. -/
structure Piece where
  piece_type : PieceType
  owner : Player
deriving DecidableEq, Repr

/-- Immutable full-shogi board: 81 squares (row-major) and two hands. -/
structure Board where
  squares : List (Option Piece)
  hands : List PieceType × List PieceType
deriving DecidableEq, Repr

/-- `hands[player.value]`. -/
def Board.handOf (b : Board) (p : Player) : List PieceType :=
  match p with
  | .sente => b.hands.1
  | .gote => b.hands.2

/-- Replace `hands[player.value]`. -/
def Board.setHand (b : Board) (p : Player) (h : List PieceType) : Board :=
  match p with
  | .sente => ⟨b.squares, (h, b.hands.2)⟩
  | .gote => ⟨b.squares, (b.hands.1, h)⟩

/-- `Board.piece_at(row, col)`. -/
def Board.piece_at (b : Board) (row col : ℕ) : Option Piece :=
  b.squares.getD (row * COLS + col) none

/-- `Board.set_piece(row, col, piece)`. -/
def Board.set_piece (b : Board) (row col : ℕ) (piece : Option Piece) : Board :=
  ⟨b.squares.set (row * COLS + col) piece, b.hands⟩

/-- Ascending sort by kind value; models Python `list.sort()` on a hand. -/
def sortHand (h : List PieceType) : List PieceType :=
  List.insertionSort (fun a b => a.val ≤ b.val) h

/-- `Board.add_to_hand`: a captured promoted piece reverts to its base
kind, the kind is appended and the hand re-sorted. -/
def Board.add_to_hand (b : Board) (player : Player) (piece_type : PieceType) : Board :=
  b.setHand player (sortHand (b.handOf player ++ [unpromote piece_type]))

/-- `Board.remove_from_hand`. -/
def Board.remove_from_hand (b : Board) (player : Player) (piece_type : PieceType) : Board :=
  b.setHand player ((b.handOf player).erase piece_type)

/-- `Board.find_king`: first index holding the player's king, or none. -/
def Board.find_king (b : Board) (player : Player) : Option ℕ :=
  b.squares.findIdx? (fun sq =>
    match sq with
    | some piece => piece.piece_type = .king && piece.owner = player
    | none => false)

/-- `Board.count_pawns_in_column`: unpromoted own pawns in a column. -/
def Board.count_pawns_in_column (b : Board) (player : Player) (col : ℕ) : ℕ :=
  (List.range ROWS).countP (fun r =>
    match b.piece_at r col with
    | some p => p.owner = player && p.piece_type = .pawn
    | none => false)

/-- The standard full-shogi starting squares (hirate). -/
def initialSquares : List (Option Piece) :=
  ([some ⟨.lance, .gote⟩, some ⟨.knight, .gote⟩, some ⟨.silver, .gote⟩,
    some ⟨.gold, .gote⟩, some ⟨.king, .gote⟩, some ⟨.gold, .gote⟩,
    some ⟨.silver, .gote⟩, some ⟨.knight, .gote⟩, some ⟨.lance, .gote⟩] :
      List (Option Piece)) ++
  [none, some ⟨.rook, .gote⟩, none, none, none, none, none, some ⟨.bishop, .gote⟩, none] ++
  (List.replicate 9 (some ⟨.pawn, .gote⟩)) ++
  (List.replicate 27 none) ++
  (List.replicate 9 (some ⟨.pawn, .sente⟩)) ++
  [none, some ⟨.bishop, .sente⟩, none, none, none, none, none, some ⟨.rook, .sente⟩, none] ++
  [some ⟨.lance, .sente⟩, some ⟨.knight, .sente⟩, some ⟨.silver, .sente⟩,
    some ⟨.gold, .sente⟩, some ⟨.king, .sente⟩, some ⟨.gold, .sente⟩,
    some ⟨.silver, .sente⟩, some ⟨.knight, .sente⟩, some ⟨.lance, .sente⟩]

/-- The initial full-shogi board (empty hands). -/
def initialBoard : Board := ⟨initialSquares, ([], [])⟩

/-- Action space of full shogi (13689). -/
def ACTION_SPACE : ℕ := 13689

/-- Base of promoting board moves (6561). -/
def PROMO_MOVE_BASE : ℕ := NUM_SQUARES * NUM_SQUARES

/-- Base of drop moves (13122). -/
def DROP_MOVE_BASE : ℕ := 2 * (NUM_SQUARES * NUM_SQUARES)

/-- `encode_board_move(from, to, promote)`. -/
def encode_board_move (from_idx to_idx : ℕ) (promote : Bool) : ℕ :=
  if promote then PROMO_MOVE_BASE + from_idx * NUM_SQUARES + to_idx
  else from_idx * NUM_SQUARES + to_idx

/-- Index of a kind in the droppable list (`list.index`; raises in the
source for a non-droppable kind, the embedding returns 7). -/
def handIndex : PieceType → ℕ
  | .pawn => 0
  | .lance => 1
  | .knight => 2
  | .silver => 3
  | .gold => 4
  | .bishop => 5
  | .rook => 6
  | _ => 7

/-- `encode_drop_move(piece_type, to)`. -/
def encode_drop_move (piece_type : PieceType) (to_idx : ℕ) : ℕ :=
  DROP_MOVE_BASE + handIndex piece_type * NUM_SQUARES + to_idx

/-- The decoded form of a full-shogi action index. -/
inductive Decoded where
  | board (src dst : ℕ × ℕ) (promote : Bool)
  | drop (piece_type : PieceType) (dst : ℕ × ℕ)
deriving DecidableEq, Repr

/-- `decode_move`: range tests against the three bases. -/
def decode_move (move : ℕ) : Decoded :=
  if move < PROMO_MOVE_BASE then
    let from_idx := move / NUM_SQUARES
    let to_idx := move % NUM_SQUARES
    .board (from_idx / COLS, from_idx % COLS) (to_idx / COLS, to_idx % COLS) false
  else if move < DROP_MOVE_BASE then
    let adjusted := move - PROMO_MOVE_BASE
    let from_idx := adjusted / NUM_SQUARES
    let to_idx := adjusted % NUM_SQUARES
    .board (from_idx / COLS, from_idx % COLS) (to_idx / COLS, to_idx % COLS) true
  else
    let adjusted := move - DROP_MOVE_BASE
    let pt_index := adjusted / NUM_SQUARES
    let to_idx := adjusted % NUM_SQUARES
    .drop (HAND_PIECE_TYPES.getD pt_index .pawn) (to_idx / COLS, to_idx % COLS)

/-- `_in_promotion_zone`: the enemy's three ranks. -/
def in_promotion_zone (player : Player) (row : ℕ) : Bool :=
  if player = .sente then row ≤ 2 else row ≥ 6

/-- `_must_promote`: PAWN/LANCE on the last rank, KNIGHT on the last two. -/
def must_promote (piece_type : PieceType) (player : Player) (dest_row : ℕ) : Bool :=
  if piece_type = PieceType.pawn || piece_type = PieceType.lance then
    if player = .sente then dest_row = 0 else dest_row = 8
  else if piece_type = PieceType.knight then
    if player = .sente then dest_row ≤ 1 else dest_row ≥ 7
  else false

/-- `_add_move_with_promotion`: emit the promoting variant when allowed and
in zone, and the plain variant unless promotion is mandatory. -/
def addMoveWithPromotion (from_idx to_idx : ℕ) (piece_type : PieceType)
    (player : Player) (from_row to_row : ℕ) : List ℕ :=
  let can_promote := (PROMOTION_MAP piece_type).isSome
  let in_zone := in_promotion_zone player from_row || in_promotion_zone player to_row
  let mustP := must_promote piece_type player to_row
  if can_promote && in_zone then
    if mustP then [encode_board_move from_idx to_idx true]
    else [encode_board_move from_idx to_idx true, encode_board_move from_idx to_idx false]
  else if !mustP then [encode_board_move from_idx to_idx false]
  else []

/-- The per-delta body of the one-step/knight emission loop. -/
def stepEmit (b : Board) (player : Player) (idx : ℕ) (pt : PieceType)
    (d : ℤ × ℤ) : List ℕ :=
  let row := idx / COLS
  let col := idx % COLS
  let dr : ℤ := if player = .gote then -d.1 else d.1
  let dc : ℤ := d.2
  let nr : ℤ := (row : ℤ) + dr
  let nc : ℤ := (col : ℤ) + dc
  if 0 ≤ nr ∧ nr < (ROWS : ℤ) ∧ 0 ≤ nc ∧ nc < (COLS : ℤ) then
    match b.piece_at nr.toNat nc.toNat with
    | some target =>
      if target.owner = player then []
      else addMoveWithPromotion idx (nr.toNat * COLS + nc.toNat) pt player row nr.toNat
    | none => addMoveWithPromotion idx (nr.toNat * COLS + nc.toNat) pt player row nr.toNat
  else []

/-- One-step and knight-jump targets share this emission body. -/
def stepTargets (b : Board) (player : Player) (idx : ℕ) (pt : PieceType)
    (deltas : List (ℤ × ℤ)) : List ℕ :=
  deltas.flatMap (stepEmit b player idx pt)

/-- The sliding `while` loop of `_generate_board_moves`: walk from
`(nr, nc)` in direction `(dr, dc)`, emitting until blocked.  Fuel bounds
the walk; `NUM_SQUARES` suffices for any nonzero direction. -/
def slideWalk (b : Board) (player : Player) (idx : ℕ) (pt : PieceType)
    (row : ℕ) (dr dc : ℤ) : ℤ → ℤ → ℕ → List ℕ
  | _, _, 0 => []
  | nr, nc, fuel + 1 =>
    if 0 ≤ nr ∧ nr < (ROWS : ℤ) ∧ 0 ≤ nc ∧ nc < (COLS : ℤ) then
      match b.piece_at nr.toNat nc.toNat with
      | some target =>
        if target.owner = player then []
        else addMoveWithPromotion idx (nr.toNat * COLS + nc.toNat) pt player row nr.toNat
      | none =>
        addMoveWithPromotion idx (nr.toNat * COLS + nc.toNat) pt player row nr.toNat ++
          slideWalk b player idx pt row dr dc (nr + dr) (nc + dc) fuel
    else []

/-- The per-delta body of the HORSE/DRAGON extra-step loop. -/
def extraEmit (b : Board) (player : Player) (idx : ℕ) (d : ℤ × ℤ) : List ℕ :=
  let row := idx / COLS
  let col := idx % COLS
  let dr : ℤ := if player = .gote then -d.1 else d.1
  let dc : ℤ := d.2
  let nr : ℤ := (row : ℤ) + dr
  let nc : ℤ := (col : ℤ) + dc
  if 0 ≤ nr ∧ nr < (ROWS : ℤ) ∧ 0 ≤ nc ∧ nc < (COLS : ℤ) then
    match b.piece_at nr.toNat nc.toNat with
    | some target =>
      if target.owner = player then []
      else [encode_board_move idx (nr.toNat * COLS + nc.toNat) false]
    | none => [encode_board_move idx (nr.toNat * COLS + nc.toNat) false]
  else []

/-- Extra one-step moves of HORSE/DRAGON (no promotion variant). -/
def extraStepTargets (b : Board) (player : Player) (idx : ℕ)
    (deltas : List (ℤ × ℤ)) : List ℕ :=
  deltas.flatMap (extraEmit b player idx)

/-- All board moves emitted for the piece standing on square `idx`
(step, knight, slide, horse/dragon extras, in source order). -/
def boardMovesFrom (b : Board) (player : Player) (idx : ℕ) (piece : Piece) : List ℕ :=
  let row := idx / COLS
  let col := idx % COLS
  let pt := piece.piece_type
  stepTargets b player idx pt (STEP_MOVES pt) ++
  (if pt = PieceType.knight then stepTargets b player idx pt KNIGHT_MOVES else []) ++
  ((SLIDE_MOVES pt).flatMap (fun d =>
    let dr : ℤ := if player = .gote then -d.1 else d.1
    let dc : ℤ := if player = .gote then -d.2 else d.2
    slideWalk b player idx pt row dr dc ((row : ℤ) + dr) ((col : ℤ) + dc) NUM_SQUARES)) ++
  (if pt = PieceType.horse then extraStepTargets b player idx HORSE_EXTRA_STEPS else []) ++
  (if pt = PieceType.dragon then extraStepTargets b player idx DRAGON_EXTRA_STEPS else [])

/-- `_generate_board_moves`. -/
def generate_board_moves (b : Board) (player : Player) : List ℕ :=
  (List.range NUM_SQUARES).flatMap (fun idx =>
    match b.squares.getD idx none with
    | some piece => if piece.owner = player then boardMovesFrom b player idx piece else []
    | none => [])

/-- `_generate_drop_moves` with the nifu and dead-piece restrictions
(the source implements no uchifuzume restriction). -/
def generate_drop_moves (b : Board) (player : Player) : List ℕ :=
  (b.handOf player).dedup.flatMap (fun pt =>
    (List.range NUM_SQUARES).flatMap (fun idx =>
      if b.squares.getD idx none ≠ none then []
      else
        let row := idx / ROWS
        let col := idx % COLS
        if pt = PieceType.pawn ∧ b.count_pawns_in_column player col > 0 then []
        else if (pt = PieceType.pawn ∨ pt = PieceType.lance) ∧
            ((player = .sente ∧ row = 0) ∨ (player = .gote ∧ row = 8)) then []
        else if pt = PieceType.knight ∧
            ((player = .sente ∧ row ≤ 1) ∨ (player = .gote ∧ row ≥ 7)) then []
        else [encode_drop_move pt idx]))

/-- `_pseudo_legal_moves`: board moves then drops. -/
def pseudo_legal_moves (b : Board) (player : Player) : List ℕ :=
  generate_board_moves b player ++ generate_drop_moves b player

/-- `_apply_board_move`.  The origin is asserted occupied in the source;
the embedding keeps the board unchanged when it is empty. -/
def apply_board_move (b : Board) (player : Player) (move : ℕ) : Board :=
  let promote := move ≥ PROMO_MOVE_BASE
  let adjusted := if promote then move - PROMO_MOVE_BASE else move
  let from_idx := adjusted / NUM_SQUARES
  let to_idx := adjusted % NUM_SQUARES
  match b.squares.getD from_idx none with
  | none => b
  | some piece =>
    let b1 :=
      match b.squares.getD to_idx none with
      | some target => b.add_to_hand player target.piece_type
      | none => b
    let new_type :=
      if promote then
        match PROMOTION_MAP piece.piece_type with
        | some promoted => promoted
        | none => piece.piece_type
      else piece.piece_type
    let b2 := b1.set_piece (from_idx / COLS) (from_idx % COLS) none
    b2.set_piece (to_idx / COLS) (to_idx % COLS) (some ⟨new_type, player⟩)

/-- `_apply_drop`. -/
def apply_drop (b : Board) (player : Player) (move : ℕ) : Board :=
  let adjusted := move - DROP_MOVE_BASE
  let pt_index := adjusted / NUM_SQUARES
  let to_idx := adjusted % NUM_SQUARES
  let pt := HAND_PIECE_TYPES.getD pt_index .pawn
  let b1 := b.remove_from_hand player pt
  b1.set_piece (to_idx / COLS) (to_idx % COLS) (some ⟨pt, player⟩)

/-- `apply_move`: dispatch on the drop base. -/
def apply_move (b : Board) (player : Player) (move : ℕ) : Board :=
  if move ≥ DROP_MOVE_BASE then apply_drop b player move
  else apply_board_move b player move

/-- The sliding `while` loop of `_attacks_square`: walk until the target
square is reached (attack) or a piece blocks the ray. -/
def attackSlideWalk (b : Board) (target_row target_col : ℕ) (dr dc : ℤ) :
    ℤ → ℤ → ℕ → Bool
  | _, _, 0 => false
  | nr, nc, fuel + 1 =>
    if 0 ≤ nr ∧ nr < (ROWS : ℤ) ∧ 0 ≤ nc ∧ nc < (COLS : ℤ) then
      if nr = (target_row : ℤ) ∧ nc = (target_col : ℤ) then true
      else if b.piece_at nr.toNat nc.toNat ≠ none then false
      else attackSlideWalk b target_row target_col dr dc (nr + dr) (nc + dc) fuel
    else false

/-- `_attacks_square`: does the piece standing on `piece_idx` attack
`(target_row, target_col)`? -/
def attacks_square (b : Board) (piece : Piece) (piece_idx target_row target_col : ℕ)
    (attacker : Player) : Bool :=
  let row := piece_idx / COLS
  let col := piece_idx % COLS
  let pt := piece.piece_type
  ((STEP_MOVES pt).any (fun d =>
    let dr : ℤ := if attacker = .gote then -d.1 else d.1
    (row : ℤ) + dr = (target_row : ℤ) ∧ (col : ℤ) + d.2 = (target_col : ℤ))) ||
  (pt = PieceType.knight &&
    KNIGHT_MOVES.any (fun d =>
      let dr : ℤ := if attacker = .gote then -d.1 else d.1
      (row : ℤ) + dr = (target_row : ℤ) ∧ (col : ℤ) + d.2 = (target_col : ℤ))) ||
  ((SLIDE_MOVES pt).any (fun d =>
    let dr : ℤ := if attacker = .gote then -d.1 else d.1
    let dc : ℤ := if attacker = .gote then -d.2 else d.2
    attackSlideWalk b target_row target_col dr dc ((row : ℤ) + dr) ((col : ℤ) + dc)
      NUM_SQUARES)) ||
  (pt = PieceType.horse &&
    HORSE_EXTRA_STEPS.any (fun d =>
      let dr : ℤ := if attacker = .gote then -d.1 else d.1
      (row : ℤ) + dr = (target_row : ℤ) ∧ (col : ℤ) + d.2 = (target_col : ℤ))) ||
  (pt = PieceType.dragon &&
    DRAGON_EXTRA_STEPS.any (fun d =>
      let dr : ℤ := if attacker = .gote then -d.1 else d.1
      (row : ℤ) + dr = (target_row : ℤ) ∧ (col : ℤ) + d.2 = (target_col : ℤ)))

/-- `_is_in_check`: a missing king counts as in check; otherwise scan every
opponent piece for an attack on the king's square. -/
def is_in_check (b : Board) (player : Player) : Bool :=
  match b.find_king player with
  | none => true
  | some king_idx =>
    let opponent := player.opponent
    let king_row := king_idx / COLS
    let king_col := king_idx % COLS
    (List.range NUM_SQUARES).any (fun idx =>
      match b.squares.getD idx none with
      | some piece =>
        piece.owner = opponent && attacks_square b piece idx king_row king_col opponent
      | none => false)

/-- `legal_moves(board, player)`: pseudo-legal moves whose application
leaves the mover's own king out of check. -/
def legal_moves (b : Board) (player : Player) : List ℕ :=
  (pseudo_legal_moves b player).filter (fun move =>
    !is_in_check (apply_move b player move) player)

/-- The full-shogi `GameState`. -/
structure State where
  board : Board
  current_player : Player
  move_count : ℕ
deriving DecidableEq, Repr

/-- The initial full-shogi game state. -/
def State.initial : State := ⟨initialBoard, .sente, 0⟩

/-- `legal_moves()` of a state. -/
def State.legalMoves (s : State) : List ℕ :=
  legal_moves s.board s.current_player

/-- `apply_move()`: new board, flipped player, incremented ply. -/
def State.applyMove (s : State) (move : ℕ) : State :=
  ⟨apply_move s.board s.current_player move, s.current_player.opponent, s.move_count + 1⟩

/-- `winner`: a missing king loses; otherwise no-legal-moves loses. -/
def State.winner (s : State) : Option ℕ :=
  if s.board.find_king .sente = none then some (Player.sente.opponent.val)
  else if s.board.find_king .gote = none then some (Player.gote.opponent.val)
  else if s.legalMoves.length = 0 then some s.current_player.opponent.val
  else none

/-- `is_terminal`: a king is missing or no legal move remains. -/
def State.isTerminal (s : State) : Bool :=
  s.board.find_king .sente = none || s.board.find_king .gote = none ||
    s.legalMoves.length = 0

end Full

/-! ## Test fixtures (concrete boards used by witnesses and counterexamples) -/

/-- An empty 9x9 square list. -/
def Full.emptySquares : List (Option Full.Piece) := List.replicate 81 none

/-- The board of the repository's uchifuzume test: SENTE king (8,4),
GOTE king (0,8), SENTE golds (0,6) and (2,7), SENTE hand one PAWN. -/
def Full.uchiBoard : Full.Board :=
  ((((Full.Board.mk Full.emptySquares ([.pawn], [])).set_piece 8 4
    (some ⟨.king, .sente⟩)).set_piece 0 8 (some ⟨.king, .gote⟩)).set_piece 0 6
    (some ⟨.gold, .sente⟩)).set_piece 2 7 (some ⟨.gold, .sente⟩)

/-- Two bare kings: SENTE (8,4), GOTE (0,4). -/
def Full.twoKingsBoard : Full.Board :=
  ((Full.Board.mk Full.emptySquares ([], [])).set_piece 8 4
    (some ⟨.king, .sente⟩)).set_piece 0 4 (some ⟨.king, .gote⟩)

/-! ## Shared helper lemmas -/

theorem Animal.DROP_OFFSET_eq : Animal.DROP_OFFSET = 144 := rfl

theorem Animal.NUM_SQUARES_eq : Animal.NUM_SQUARES = 12 := rfl

theorem Animal.COLS_eq : Animal.COLS = 3 := rfl

theorem Animal.ROWS_eq : Animal.ROWS = 4 := rfl

theorem Full.PROMO_MOVE_BASE_eq : Full.PROMO_MOVE_BASE = 6561 := rfl

theorem Full.DROP_MOVE_BASE_eq : Full.DROP_MOVE_BASE = 13122 := rfl

theorem Full.full_NUM_SQUARES_eq : Full.NUM_SQUARES = 81 := rfl

theorem Full.full_COLS_eq : Full.COLS = 9 := rfl

theorem Full.full_ROWS_eq : Full.ROWS = 9 := rfl

/-- Every move retained by the full-shogi legal filter leaves the mover's
king out of check (the filter predicate, by `List.mem_filter`). -/
theorem Full.mem_legal_moves_not_in_check {b : Full.Board} {p : Player} {m : ℕ}
    (h : m ∈ Full.legal_moves b p) :
    Full.is_in_check (Full.apply_move b p m) p = false := by
  unfold Full.legal_moves at h
  rw [List.mem_filter] at h
  simpa using h.2

/-- A board without the player's king is declared in check. -/
theorem Full.is_in_check_of_no_king {b : Full.Board} {p : Player}
    (h : b.find_king p = none) : Full.is_in_check b p = true := by
  unfold Full.is_in_check
  rw [h]

/-! ## C5: move-codec round trip and injectivity -/

/-- C5: For both variants' move codecs, decoding is the exact inverse of
encoding on the valid move domain (board moves with `from, to` in range,
plus the full-shogi promotion flag; drops of hand-eligible kinds), and
encoding is injective across that whole domain: board encodings determine
`(from, to)` (and the flag), drop encodings determine `(kind, to)`, and
board and drop ranges never collide. -/
theorem C5_codec_roundtrip_and_injective :
    (∀ f t, f < 12 → t < 12 →
      Animal.decode_move (Animal.encode_board_move f t) =
        Animal.Decoded.board (f / 3, f % 3) (t / 3, t % 3)) ∧
    (∀ pt t, pt ∈ Animal.HAND_PIECE_TYPES → t < 12 →
      Animal.decode_move (Animal.encode_drop_move pt t) =
        Animal.Decoded.drop pt (t / 3, t % 3)) ∧
    (∀ f t f2 t2, t < 12 → t2 < 12 →
      Animal.encode_board_move f t = Animal.encode_board_move f2 t2 → f = f2 ∧ t = t2) ∧
    (∀ pt t pt2 t2, pt ∈ Animal.HAND_PIECE_TYPES → pt2 ∈ Animal.HAND_PIECE_TYPES →
      t < 12 → t2 < 12 →
      Animal.encode_drop_move pt t = Animal.encode_drop_move pt2 t2 → pt = pt2 ∧ t = t2) ∧
    (∀ f t pt t2, f < 12 → t < 12 →
      Animal.encode_board_move f t ≠ Animal.encode_drop_move pt t2) ∧
    (∀ f t pr, f < 81 → t < 81 →
      Full.decode_move (Full.encode_board_move f t pr) =
        Full.Decoded.board (f / 9, f % 9) (t / 9, t % 9) pr) ∧
    (∀ pt t, pt ∈ Full.HAND_PIECE_TYPES → t < 81 →
      Full.decode_move (Full.encode_drop_move pt t) =
        Full.Decoded.drop pt (t / 9, t % 9)) ∧
    (∀ f t pr f2 t2 pr2, f < 81 → t < 81 → f2 < 81 → t2 < 81 →
      Full.encode_board_move f t pr = Full.encode_board_move f2 t2 pr2 →
      f = f2 ∧ t = t2 ∧ pr = pr2) ∧
    (∀ pt t pt2 t2, pt ∈ Full.HAND_PIECE_TYPES → pt2 ∈ Full.HAND_PIECE_TYPES →
      t < 81 → t2 < 81 →
      Full.encode_drop_move pt t = Full.encode_drop_move pt2 t2 → pt = pt2 ∧ t = t2) ∧
    (∀ f t pr pt t2, f < 81 → t < 81 →
      Full.encode_board_move f t pr ≠ Full.encode_drop_move pt t2) := by
  refine ⟨?_, ?_, ?_, ?_, ?_, ?_, ?_, ?_, ?_, ?_⟩
  · intro f t hf ht
    simp only [Animal.decode_move, Animal.encode_board_move, Animal.DROP_OFFSET_eq,
      Animal.COLS_eq]
    rw [if_pos (by omega)]
    have h1 : (f * 12 + t) / 12 = f := by omega
    have h2 : (f * 12 + t) % 12 = t := by omega
    rw [h1, h2]
  · intro pt t hpt ht
    have hget : Animal.HAND_PIECE_TYPES.getD (Animal.handIndex pt) .chick = pt := by
      fin_cases hpt <;> rfl
    simp only [Animal.decode_move, Animal.encode_drop_move, Animal.DROP_OFFSET_eq,
      Animal.COLS_eq]
    rw [if_neg (by omega)]
    have h1 : (144 + Animal.handIndex pt * 12 + t - 144) / 12 = Animal.handIndex pt := by
      omega
    have h2 : (144 + Animal.handIndex pt * 12 + t - 144) % 12 = t := by omega
    rw [h1, h2, hget]
  · intro f t f2 t2 ht ht2 h
    unfold Animal.encode_board_move at h
    omega
  · intro pt t pt2 t2 hpt hpt2 ht ht2 h
    simp only [Animal.encode_drop_move, Animal.DROP_OFFSET_eq] at h
    fin_cases hpt <;> fin_cases hpt2 <;> simp only [Animal.handIndex] at h <;>
      first
      | exact ⟨rfl, by omega⟩
      | exact absurd h (by omega)
  · intro f t pt t2 hf ht
    simp only [Animal.encode_board_move, Animal.encode_drop_move, Animal.DROP_OFFSET_eq]
    omega
  · intro f t pr hf ht
    cases pr with
    | false =>
      have he : Full.encode_board_move f t false = f * 81 + t := rfl
      rw [he]
      simp only [Full.decode_move, Full.PROMO_MOVE_BASE_eq, Full.DROP_MOVE_BASE_eq,
        Full.full_NUM_SQUARES_eq, Full.full_COLS_eq]
      rw [if_pos (by omega)]
      have h1 : (f * 81 + t) / 81 = f := by omega
      have h2 : (f * 81 + t) % 81 = t := by omega
      rw [h1, h2]
    | true =>
      have he : Full.encode_board_move f t true = 6561 + f * 81 + t := rfl
      rw [he]
      simp only [Full.decode_move, Full.PROMO_MOVE_BASE_eq, Full.DROP_MOVE_BASE_eq,
        Full.full_NUM_SQUARES_eq, Full.full_COLS_eq]
      rw [if_neg (by omega), if_pos (by omega)]
      have h0 : 6561 + f * 81 + t - 6561 = f * 81 + t := by omega
      rw [h0]
      have h1 : (f * 81 + t) / 81 = f := by omega
      have h2 : (f * 81 + t) % 81 = t := by omega
      rw [h1, h2]
  · intro pt t hpt ht
    have hget : Full.HAND_PIECE_TYPES.getD (Full.handIndex pt) .pawn = pt := by
      fin_cases hpt <;> rfl
    simp only [Full.decode_move, Full.encode_drop_move, Full.PROMO_MOVE_BASE_eq,
      Full.DROP_MOVE_BASE_eq, Full.full_NUM_SQUARES_eq, Full.full_COLS_eq]
    rw [if_neg (by omega), if_neg (by omega)]
    have h1 : (13122 + Full.handIndex pt * 81 + t - 13122) / 81 = Full.handIndex pt := by
      omega
    have h2 : (13122 + Full.handIndex pt * 81 + t - 13122) % 81 = t := by omega
    rw [h1, h2, hget]
  · intro f t pr f2 t2 pr2 hf ht hf2 ht2 h
    have e1 : ∀ g u : ℕ, Full.encode_board_move g u true = 6561 + g * 81 + u :=
      fun _ _ => rfl
    have e0 : ∀ g u : ℕ, Full.encode_board_move g u false = g * 81 + u := fun _ _ => rfl
    cases pr <;> cases pr2 <;> simp only [e0, e1] at h <;>
      first
      | exact ⟨by omega, by omega, rfl⟩
      | exact absurd h (by omega)
  · intro pt t pt2 t2 hpt hpt2 ht ht2 h
    simp only [Full.encode_drop_move, Full.DROP_MOVE_BASE_eq, Full.full_NUM_SQUARES_eq] at h
    fin_cases hpt <;> fin_cases hpt2 <;> simp only [Full.handIndex] at h <;>
      first
      | exact ⟨rfl, by omega⟩
      | exact absurd h (by omega)
  · intro f t pr pt t2 hf ht
    have hidx : Full.handIndex pt ≤ 7 := by cases pt <;> simp [Full.handIndex]
    have e1 : Full.encode_board_move f t true = 6561 + f * 81 + t := rfl
    have e0 : Full.encode_board_move f t false = f * 81 + t := rfl
    simp only [Full.encode_drop_move, Full.DROP_MOVE_BASE_eq, Full.full_NUM_SQUARES_eq]
    cases pr <;> simp only [e0, e1] <;> omega

/-- C5 witness: the codec theorem instantiated at concrete moves
(animal board move 4 to 1, animal CHICK drop to 5, full board move 76 to 67
with and without promotion, full PAWN drop to 17). -/
theorem C5_codec_witness :
    Animal.decode_move (Animal.encode_board_move 4 1) =
      Animal.Decoded.board (1, 1) (0, 1) ∧
    Animal.decode_move (Animal.encode_drop_move .chick 5) =
      Animal.Decoded.drop .chick (1, 2) ∧
    Full.decode_move (Full.encode_board_move 76 67 true) =
      Full.Decoded.board (8, 4) (7, 4) true ∧
    Full.decode_move (Full.encode_drop_move .pawn 17) =
      Full.Decoded.drop .pawn (1, 8) := by
  refine ⟨?_, ?_, ?_, ?_⟩
  · exact C5_codec_roundtrip_and_injective.1 4 1 (by omega) (by omega)
  · exact C5_codec_roundtrip_and_injective.2.1 .chick 5 (by decide) (by omega)
  · exact C5_codec_roundtrip_and_injective.2.2.2.2.2.1 76 67 true (by omega) (by omega)
  · exact C5_codec_roundtrip_and_injective.2.2.2.2.2.2.1 .pawn 17 (by decide) (by omega)

/-! ## C2: king safety of the full-shogi legal filter -/

/-- C2: every move in `legal_moves(board, player)` leaves the mover's own
king out of check after application. -/
theorem C2_king_safety (b : Full.Board) (p : Player) (m : ℕ)
    (h : m ∈ Full.legal_moves b p) :
    Full.is_in_check (Full.apply_move b p m) p = false :=
  Full.mem_legal_moves_not_in_check h

/-- C2 witness: on the two-king board, the SENTE king step 76 to 67 is
legal, and by the theorem the resulting board leaves SENTE out of check. -/
theorem C2_king_safety_witness :
    (6223 ∈ Full.legal_moves Full.twoKingsBoard .sente) ∧
    Full.is_in_check (Full.apply_move Full.twoKingsBoard .sente 6223) .sente = false :=
  ⟨by decide, C2_king_safety _ _ _ (by decide)⟩

/-! ## C9: a kingless board is in check; legal moves keep the king -/

/-- C9: when `find_king` returns none the check detector returns true, and
consequently no legal move results in a board without the mover's king. -/
theorem C9_missing_king_in_check :
    (∀ (b : Full.Board) (p : Player),
      b.find_king p = none → Full.is_in_check b p = true) ∧
    (∀ (b : Full.Board) (p : Player) (m : ℕ), m ∈ Full.legal_moves b p →
      (Full.apply_move b p m).find_king p ≠ none) := by
  refine ⟨fun b p h => Full.is_in_check_of_no_king h, fun b p m hm hnone => ?_⟩
  have h1 := Full.mem_legal_moves_not_in_check hm
  have h2 := Full.is_in_check_of_no_king (b := Full.apply_move b p m) (p := p) hnone
  rw [h1] at h2
  exact Bool.false_ne_true h2

/-- C9 witness: the kingless empty board is in check for SENTE, and the
legal king move 6223 on the two-king board keeps the SENTE king present. -/
theorem C9_missing_king_witness :
    Full.is_in_check (Full.Board.mk Full.emptySquares ([], [])) .sente = true ∧
    (Full.apply_move Full.twoKingsBoard .sente 6223).find_king .sente ≠ none :=
  ⟨C9_missing_king_in_check.1 _ .sente (by decide),
   C9_missing_king_in_check.2 _ .sente 6223 (by decide)⟩

/-! ## C1: uchifuzume is not enforced by the implementation -/

/-- C1: the claim fails on the code.  At the board of the repository's own
uchifuzume test (`test_uchifuzume_is_illegal`), the PAWN drop to (1,8)
(action index 13139) delivers checkmate — after it GOTE is in check and has
no legal response — yet it IS contained in `legal_moves`: the drop
generator implements only the nifu and dead-piece restrictions and the
legal filter checks only the mover's own king. -/
theorem C1_uchifuzume_not_enforced :
    13139 = Full.encode_drop_move .pawn 17 ∧
    (13139 ∈ Full.legal_moves Full.uchiBoard .sente) ∧
    Full.is_in_check (Full.apply_move Full.uchiBoard .sente 13139) .gote = true ∧
    Full.legal_moves (Full.apply_move Full.uchiBoard .sente 13139) .gote = [] :=
  ⟨by decide, by decide, by decide, by decide⟩

/-! ## C7: the animal-shogi try rule -/

/-- C7: with both lions on the board, if the previous mover's lion stands
on the opponent's back rank and the current player has no board move
(index < 144) landing on that lion's square, `winner` is the previous
mover. -/
theorem C7_try_rule (s : Animal.State) (li : ℕ)
    (hs : s.board.find_lion .sente ≠ none)
    (hg : s.board.find_lion .gote ≠ none)
    (hl : s.board.find_lion s.current_player.opponent = some li)
    (hrow : li / Animal.COLS =
      (if s.current_player.opponent = .sente then 0 else Animal.ROWS - 1))
    (hcap : ∀ m ∈ Animal.legal_moves s.board s.current_player,
      m < 144 → m % 12 ≠ li) :
    s.winner = some s.current_player.opponent.val := by
  have hcap' : s.canCaptureLion s.current_player li = false := by
    unfold Animal.State.canCaptureLion
    rw [List.any_eq_false]
    intro m hm
    simp only [Bool.and_eq_true, decide_eq_true_eq, not_and]
    intro h144
    exact hcap m hm h144
  unfold Animal.State.winner
  rw [if_neg hs, if_neg hg]
  simp only [hl, hrow, hcap']
  simp

/-- C7 witness: SENTE lion on (0,0), GOTE lion on (3,2), GOTE to move;
GOTE has no board move onto square 0, so SENTE (the previous mover) wins. -/
def Animal.tryBoard : Animal.Board :=
  ⟨[ some ⟨.lion, .sente⟩, none, none,
     none, none, none,
     none, none, none,
     none, none, some ⟨.lion, .gote⟩ ], ([], [])⟩

/-- C7 witness: the try-rule theorem applied to the concrete try board. -/
theorem C7_try_rule_witness :
    (Animal.State.mk Animal.tryBoard .gote 5).winner = some 0 :=
  C7_try_rule (Animal.State.mk Animal.tryBoard .gote 5) 0
    (by decide) (by decide) (by decide) (by decide)
    (by decide)

/-! ## The engine layer: scores, the game-state protocol, the evaluator -/

/-- A Python float score as used by negamax: `float("-inf")`, a finite
value (an exact rational), or `float("inf")`. -/
inductive Score where
  | negInf
  | fin (z : ℤ)
  | posInf
deriving DecidableEq

/-- Negation of a score (`-inf` and `inf` swap). -/
def Score.neg : Score → Score
  | .negInf => .posInf
  | .fin q => .fin (-q)
  | .posInf => .negInf

/-- Strict float comparison `a < b`. -/
def Score.lt : Score → Score → Bool
  | .negInf, .negInf => false
  | .negInf, _ => true
  | .fin _, .negInf => false
  | .fin a, .fin b => a < b
  | .fin _, .posInf => true
  | .posInf, _ => false

/-- Float comparison `a ≤ b`. -/
def Score.le (a b : Score) : Bool :=
  !(Score.lt b a)

/-- Python `max(a, b)`: returns `a` when equal. -/
def Score.max (a b : Score) : Score :=
  if Score.lt a b then b else a

/-- The `GameState` protocol consumed by the engines (minimax, MCTS,
arena): the duck-typed interface of `game/protocol.py`. -/
structure GameIface (σ : Type) where
  isTerminal : σ → Bool
  winner : σ → Option ℕ
  currentPlayerVal : σ → ℕ
  legalMoves : σ → List ℕ
  applyMove : σ → ℕ → σ
  actionSpace : ℕ

/-- The full-shogi instance of the protocol. -/
def Full.iface : GameIface Full.State :=
  ⟨Full.State.isTerminal, Full.State.winner, fun s => s.current_player.val,
   Full.State.legalMoves, Full.State.applyMove, Full.ACTION_SPACE⟩

/-- The animal-shogi instance of the protocol. -/
def Animal.iface : GameIface Animal.State :=
  ⟨Animal.State.isTerminal, Animal.State.winner, fun s => s.current_player.val,
   Animal.State.legalMoves, Animal.State.applyMove, Animal.ACTION_SPACE⟩

/-- `_PIECE_VALUES.get(value, 0.0)`: the table is keyed by the raw kind
index 0..4 (the animal-shogi kinds); every other index gets 0.  Every float
the minimax layer produces is integral (the table is integral and the
bonuses are ±1000 ± depth), so these scores are embedded as integers. -/
def pieceValue : ℕ → ℤ
  | 0 => 1
  | 1 => 3
  | 2 => 3
  | 3 => 100
  | 4 => 5
  | _ => 0

/-- `evaluate(state)` of `engine/minimax.py` specialised to full-shogi
states: terminal bonus, then the accumulation loops over squares and the
two hands, looking each kind's raw index up in `_PIECE_VALUES`. -/
def Full.evaluate (s : Full.State) : ℤ :=
  if s.isTerminal then
    if s.winner = none then 0
    else if s.winner = some s.current_player.val then 1000
    else -1000
  else
    let score0 : ℤ := 0
    let score1 := s.board.squares.foldl (fun acc sq =>
      match sq with
      | none => acc
      | some piece =>
        if piece.owner = s.current_player then acc + pieceValue piece.piece_type.val
        else acc - pieceValue piece.piece_type.val) score0
    let score2 := s.board.hands.1.foldl (fun acc pt =>
      if s.current_player = .sente then acc + pieceValue pt.val
      else acc - pieceValue pt.val) score1
    s.board.hands.2.foldl (fun acc pt =>
      if s.current_player = .gote then acc + pieceValue pt.val
      else acc - pieceValue pt.val) score2

/-- Modelled from the spec (C3's table): PAWN 1.0, LANCE..ROOK 3.0,
KING 100.0, every promoted kind 5.0. -/
def specPieceValueFull : Full.PieceType → ℤ
  | .pawn => 1
  | .lance => 3
  | .knight => 3
  | .silver => 3
  | .gold => 3
  | .bishop => 3
  | .rook => 3
  | .king => 100
  | _ => 5

/-- Modelled from the spec: the material score the claim describes — the
signed sum of `specPieceValueFull` over board and hands. -/
def specMaterialFull (s : Full.State) : ℤ :=
  (s.board.squares.map (fun sq =>
    match sq with
    | none => (0 : ℤ)
    | some piece =>
      (if piece.owner = s.current_player then 1 else -1) * specPieceValueFull piece.piece_type)).sum
  + (s.board.hands.1.map (fun pt =>
      (if s.current_player = .sente then (1 : ℤ) else -1) * specPieceValueFull pt)).sum
  + (s.board.hands.2.map (fun pt =>
      (if s.current_player = .gote then (1 : ℤ) else -1) * specPieceValueFull pt)).sum

/-! ## C3: the static evaluator -/

/-- Non-terminal full-shogi state used against C3: both kings plus a
SENTE gold on (5,5), SENTE to move. -/
def Full.evalBoard : Full.Board :=
  (((Full.Board.mk Full.emptySquares ([], [])).set_piece 8 4
    (some ⟨.king, .sente⟩)).set_piece 0 4 (some ⟨.king, .gote⟩)).set_piece 5 5
    (some ⟨.gold, .sente⟩)

/-- The state on `Full.evalBoard`, SENTE to move. -/
def Full.evalState : Full.State := ⟨Full.evalBoard, .sente, 0⟩

set_option maxRecDepth 4000 in
/-- C3 counterexample: on a non-terminal state with both kings and one
SENTE gold, the claimed table gives 100 − 100 + 3 = 3, but the code
evaluates kings at 0 (index 7 is absent from the table) and GOLD at 5
(the table is keyed by the animal kind indices 0..4), returning 5. -/
theorem C3_evaluator_counterexample :
    Full.evalState.isTerminal = false ∧
    Full.evaluate Full.evalState = 5 ∧
    specMaterialFull Full.evalState = 3 ∧
    Full.evaluate Full.evalState ≠ specMaterialFull Full.evalState := by
  refine ⟨by decide, by decide, by decide, ?_⟩
  intro h
  rw [show Full.evaluate Full.evalState = 5 by decide,
    show specMaterialFull Full.evalState = 3 by decide] at h
  norm_num at h

/-- An accumulation step that always adds `g x` turns the fold into the
starting value plus a mapped sum (helper for C3). -/
theorem foldl_eq_add_sum {α : Type} (step : ℤ → α → ℤ) (g : α → ℤ)
    (hstep : ∀ a x, step a x = a + g x) :
    ∀ (l : List α) (a : ℤ), l.foldl step a = a + (l.map g).sum := by
  intro l
  induction l with
  | nil => intro a; simp
  | cons x xs ih =>
    intro a
    simp only [List.foldl_cons, List.map_cons, List.sum_cons, hstep]
    rw [ih]
    ring

/-- C3 (amended): the evaluator's score on a non-terminal full-shogi state
is the signed sum of the code's table — PAWN 1, LANCE 3, KNIGHT 3,
SILVER 100, GOLD 5 and 0 for BISHOP, ROOK, KING and all promoted kinds
(the `_PIECE_VALUES` dict is keyed by the raw kind index 0..4) — added for
the current player's pieces and subtracted for the opponent's, over board
and both hands; on terminal states it returns 0 for a draw, +1000 when the
current player is the winner and −1000 otherwise. -/
theorem C3_evaluator_amended (s : Full.State) :
    (s.isTerminal = false →
      Full.evaluate s =
        (s.board.squares.map (fun sq =>
          match sq with
          | none => (0 : ℤ)
          | some piece =>
            (if piece.owner = s.current_player then 1 else -1) *
              pieceValue piece.piece_type.val)).sum
        + (s.board.hands.1.map (fun pt =>
            (if s.current_player = .sente then (1 : ℤ) else -1) * pieceValue pt.val)).sum
        + (s.board.hands.2.map (fun pt =>
            (if s.current_player = .gote then (1 : ℤ) else -1) * pieceValue pt.val)).sum) ∧
    (s.isTerminal = true → s.winner = none → Full.evaluate s = 0) ∧
    (s.isTerminal = true → s.winner = some s.current_player.val →
      Full.evaluate s = 1000) ∧
    (s.isTerminal = true → s.winner ≠ none → s.winner ≠ some s.current_player.val →
      Full.evaluate s = -1000) := by
  refine ⟨?_, ?_, ?_, ?_⟩
  · intro hterm
    unfold Full.evaluate
    rw [if_neg (by rw [hterm]; exact Bool.false_ne_true)]
    have hB : ∀ (l : List (Option Full.Piece)) (a : ℤ),
        l.foldl (fun acc sq =>
          match sq with
          | none => acc
          | some piece =>
            if piece.owner = s.current_player then acc + pieceValue piece.piece_type.val
            else acc - pieceValue piece.piece_type.val) a =
        a + (l.map (fun sq =>
          match sq with
          | none => (0 : ℤ)
          | some piece =>
            (if piece.owner = s.current_player then 1 else -1) *
              pieceValue piece.piece_type.val)).sum := by
      refine foldl_eq_add_sum _ _ (fun a sq => ?_)
      cases sq with
      | none => simp
      | some piece =>
        by_cases h : piece.owner = s.current_player <;> simp only [h, if_true, if_false] <;>
          ring_nf
    have hH : ∀ (p : Player) (l : List Full.PieceType) (a : ℤ),
        l.foldl (fun acc pt =>
          if s.current_player = p then acc + pieceValue pt.val
          else acc - pieceValue pt.val) a =
        a + (l.map (fun pt =>
          (if s.current_player = p then (1 : ℤ) else -1) * pieceValue pt.val)).sum := by
      intro p
      refine foldl_eq_add_sum _ _ (fun a pt => ?_)
      by_cases h : s.current_player = p <;> simp only [h, if_true, if_false] <;>
        ring_nf
    simp only [hB, hH]
    ring
  · intro hterm hw
    unfold Full.evaluate
    rw [if_pos hterm, if_pos hw]
  · intro hterm hw
    unfold Full.evaluate
    rw [if_pos hterm, if_neg (by rw [hw]; simp), if_pos hw]
  · intro hterm hw hw2
    unfold Full.evaluate
    rw [if_pos hterm, if_neg hw, if_neg hw2]

/-- C3 amended-claim witness: the evaluator theorem applied at the
concrete non-terminal two-kings-and-a-gold state. -/
theorem C3_evaluator_amended_witness :
    Full.evalState.isTerminal = false ∧
    Full.evaluate Full.evalState =
      (Full.evalState.board.squares.map (fun sq =>
        match sq with
        | none => (0 : ℤ)
        | some piece =>
          (if piece.owner = Full.evalState.current_player then 1 else -1) *
            pieceValue piece.piece_type.val)).sum
      + (Full.evalState.board.hands.1.map (fun pt =>
          (if Full.evalState.current_player = .sente then (1 : ℤ) else -1) *
            pieceValue pt.val)).sum
      + (Full.evalState.board.hands.2.map (fun pt =>
          (if Full.evalState.current_player = .gote then (1 : ℤ) else -1) *
            pieceValue pt.val)).sum :=
  ⟨by decide, (C3_evaluator_amended Full.evalState).1 (by decide)⟩

/-! ## Negamax (engine/minimax.py) -/

/-- The `for move in moves` loop of `negamax`, with alpha-beta cutoff.
`rec` is the recursive call at depth − 1. -/
def negamaxLoop {σ : Type} (g : GameIface σ) (s : σ)
    (rec : σ → Score → Score → ℤ × Score) :
    List ℕ → ℤ → Score → Score → Score → ℤ × Score
  | [], bestMove, bestScore, _, _ => (bestMove, bestScore)
  | m :: rest, bestMove, bestScore, alpha, beta =>
    let score := (rec (g.applyMove s m) (Score.neg beta) (Score.neg alpha)).2.neg
    let bestMove' := if Score.lt bestScore score then (m : ℤ) else bestMove
    let bestScore' := if Score.lt bestScore score then score else bestScore
    let alpha' := Score.max alpha score
    if Score.le beta alpha' then (bestMove', bestScore')
    else negamaxLoop g s rec rest bestMove' bestScore' alpha' beta

/-- The terminal branch of `negamax`: the sentinel −1 together with 0 for
a draw and ±(1000 + depth) otherwise (mate-distance preference). -/
def negamaxTerminal {σ : Type} (g : GameIface σ) (depth : ℕ) (s : σ) : ℤ × Score :=
  match g.winner s with
  | none => (-1, .fin 0)
  | some w =>
    if w = g.currentPlayerVal s then (-1, .fin (1000 + depth))
    else (-1, .fin (-(1000 + (depth : ℤ))))

/-- `negamax(state, depth, alpha, beta)`: terminal scores first, static
evaluation at depth 0, otherwise the alpha-beta loop over `legal_moves`
seeded with `moves[0]` and `-inf`.  (The source indexes `moves[0]`; on an
empty list it would raise, the embedding returns the sentinel.) -/
def negamax {σ : Type} (g : GameIface σ) (evalFn : σ → ℤ) :
    ℕ → σ → Score → Score → ℤ × Score
  | 0, s, _, _ =>
    if g.isTerminal s then negamaxTerminal g 0 s
    else (-1, .fin (evalFn s))
  | d + 1, s, alpha, beta =>
    if g.isTerminal s then negamaxTerminal g (d + 1) s
    else
      match g.legalMoves s with
      | [] => (-1, .negInf)
      | m0 :: _ =>
        negamaxLoop g s (fun s2 a b => negamax g evalFn d s2 a b)
          (g.legalMoves s) (m0 : ℤ) .negInf alpha beta

/-- `minimax_move(state, depth=4)`. -/
def minimax_move {σ : Type} (g : GameIface σ) (evalFn : σ → ℤ) (s : σ)
    (depth : ℕ := 4) : ℤ :=
  (negamax g evalFn depth s .negInf .posInf).1

/-! ## C10: the −1 sentinel -/

/-- C10: `negamax` returns −1 (outside the action space: every legal move
is a natural number) as its best-move component on terminal states and at
depth 0, and therefore `minimax_move` on a terminal state returns −1. -/
theorem C10_negamax_sentinel {σ : Type} (g : GameIface σ) (evalFn : σ → ℤ)
    (s : σ) (depth : ℕ) (alpha beta : Score)
    (h : g.isTerminal s = true ∨ depth = 0) :
    (negamax g evalFn depth s alpha beta).1 = -1 ∧
    (g.isTerminal s = true → ∀ d : ℕ, minimax_move g evalFn s d = -1) ∧
    (∀ m ∈ g.legalMoves s, (m : ℤ) ≠ -1) := by
  have htres : ∀ d : ℕ, (negamaxTerminal g d s).1 = -1 := by
    intro d
    unfold negamaxTerminal
    cases g.winner s with
    | none => rfl
    | some w => by_cases hw : w = g.currentPlayerVal s <;> simp [hw]
  have hterm : ∀ (d : ℕ) (a b : Score), g.isTerminal s = true →
      (negamax g evalFn d s a b).1 = -1 := by
    intro d a b ht
    cases d with
    | zero =>
      unfold negamax
      rw [if_pos ht]
      exact htres 0
    | succ n =>
      unfold negamax
      rw [if_pos ht]
      exact htres (n + 1)
  refine ⟨?_, fun ht d => hterm d _ _ ht, fun m _ => by omega⟩
  rcases h with ht | hd
  · exact hterm depth alpha beta ht
  · subst hd
    by_cases ht : g.isTerminal s = true
    · exact hterm 0 alpha beta ht
    · unfold negamax
      rw [if_neg ht]

/-- A concrete terminal animal state: GOTE's lion is gone, so the state is
terminal with winner SENTE. -/
def Animal.lionGoneState : Animal.State :=
  ⟨⟨[ none, none, none,
      none, none, none,
      none, some ⟨.chick, .gote⟩, none,
      none, some ⟨.lion, .sente⟩, none ], ([], [])⟩, .gote, 7⟩

/-- C10 witness: on the concrete terminal animal state, negamax at depth 3
returns the sentinel −1, as does `minimax_move` at the default depth. -/
theorem C10_negamax_sentinel_witness :
    Animal.iface.isTerminal Animal.lionGoneState = true ∧
    (negamax Animal.iface (fun _ => 0) 3 Animal.lionGoneState .negInf .posInf).1 = -1 ∧
    minimax_move Animal.iface (fun _ => 0) Animal.lionGoneState = -1 := by
  have h := C10_negamax_sentinel Animal.iface (fun _ => 0) Animal.lionGoneState 3
    .negInf .posInf (Or.inl (by decide))
  exact ⟨by decide, h.1, h.2.1 (by decide) 4⟩

/-! ## Arena (training/arena.py) -/

/-- The `while not state.is_terminal and move_count < max_moves` loop of
`pit`.  The fuel starts at `max_moves` and satisfies
`count + fuel = max_moves`, so it runs out exactly when the counter guard
fails. -/
def pitLoop {σ : Type} (g : GameIface σ) (senteFn goteFn : σ → ℕ) (maxMoves : ℕ) :
    σ → ℕ → ℕ → σ × ℕ
  | s, count, 0 => (s, count)
  | s, count, fuel + 1 =>
    if g.isTerminal s = false ∧ count < maxMoves then
      let move := if g.currentPlayerVal s = 0 then senteFn s else goteFn s
      pitLoop g senteFn goteFn maxMoves (g.applyMove s move) (count + 1) fuel
    else (s, count)

/-- One arena game from the initial state: final state and move count. -/
def playGame {σ : Type} (g : GameIface σ) (senteFn goteFn : σ → ℕ)
    (initial : σ) (maxMoves : ℕ) : σ × ℕ :=
  pitLoop g senteFn goteFn maxMoves initial 0 maxMoves

/-- `pit(player1_fn, player2_fn, initial_state, num_games, max_moves)`:
alternate colours by game parity, play each game, then classify —
a draw when the winner is None **or** the move counter reached the cap,
otherwise a win for player 1 exactly when the winner's seat is the seat
player 1 occupied. -/
def pit {σ : Type} (g : GameIface σ) (player1_fn player2_fn : σ → ℕ)
    (initial : σ) (num_games : ℕ := 50) (max_moves : ℕ := 200) : ℕ × ℕ × ℕ :=
  (List.range num_games).foldl (fun acc game_idx =>
    let p1_is_sente : Bool := game_idx % 2 == 0
    let senteFn := if p1_is_sente then player1_fn else player2_fn
    let goteFn := if p1_is_sente then player2_fn else player1_fn
    let fin := playGame g senteFn goteFn initial max_moves
    if g.winner fin.1 = none ∨ fin.2 ≥ max_moves then
      (acc.1, acc.2.1, acc.2.2 + 1)
    else if (g.winner fin.1 = some 0 ∧ p1_is_sente = true) ∨
        (g.winner fin.1 = some 1 ∧ p1_is_sente = false) then
      (acc.1 + 1, acc.2.1, acc.2.2)
    else
      (acc.1, acc.2.1 + 1, acc.2.2)) (0, 0, 0)

/-- Componentwise addition of (wins1, wins2, draws) triples. -/
def addTriple (a b : ℕ × ℕ × ℕ) : ℕ × ℕ × ℕ :=
  (a.1 + b.1, a.2.1 + b.2.1, a.2.2 + b.2.2)

/-- The classification of one arena game, written from the amended claim:
a draw when the final state has no winner or the cap was reached, else a
win credited to player 1 exactly when the winner's seat is player 1's
seat of that game. -/
def pitGameResult {σ : Type} (g : GameIface σ) (player1_fn player2_fn : σ → ℕ)
    (initial : σ) (max_moves game_idx : ℕ) : ℕ × ℕ × ℕ :=
  let p1_is_sente : Bool := game_idx % 2 == 0
  let fin := playGame g (if p1_is_sente then player1_fn else player2_fn)
    (if p1_is_sente then player2_fn else player1_fn) initial max_moves
  if g.winner fin.1 = none ∨ fin.2 ≥ max_moves then (0, 0, 1)
  else if (g.winner fin.1 = some 0 ∧ p1_is_sente = true) ∨
      (g.winner fin.1 = some 1 ∧ p1_is_sente = false) then (1, 0, 0)
  else (0, 1, 0)

/-- The loop-exit property of one arena game: the game stops at a terminal
state or exactly at the cap, never beyond it (helper for C4). -/
theorem pitLoop_exit {σ : Type} (g : GameIface σ) (senteFn goteFn : σ → ℕ)
    (maxMoves : ℕ) :
    ∀ (fuel : ℕ) (s : σ) (count : ℕ), count + fuel = maxMoves →
      (pitLoop g senteFn goteFn maxMoves s count fuel).2 ≤ maxMoves ∧
      (g.isTerminal (pitLoop g senteFn goteFn maxMoves s count fuel).1 = true ∨
        (pitLoop g senteFn goteFn maxMoves s count fuel).2 = maxMoves) := by
  intro fuel
  induction fuel with
  | zero =>
    intro s count hc
    unfold pitLoop
    exact ⟨by omega, Or.inr (by omega)⟩
  | succ n ih =>
    intro s count hc
    unfold pitLoop
    by_cases hcond : g.isTerminal s = false ∧ count < maxMoves
    · rw [if_pos hcond]
      exact ih (g.applyMove s (if g.currentPlayerVal s = 0 then senteFn s else goteFn s))
        (count + 1) (by omega)
    · rw [if_neg hcond]
      refine ⟨by omega, Or.inl ?_⟩
      rcases Bool.eq_false_or_eq_true (g.isTerminal s) with ht | hf
      · exact ht
      · exact absurd ⟨hf, by omega⟩ hcond

/-- One step of the pit fold adds that game's classification (helper). -/
theorem pit_step_eq {σ : Type} (g : GameIface σ) (f1 f2 : σ → ℕ) (initial : σ)
    (max_moves : ℕ) (acc : ℕ × ℕ × ℕ) (game_idx : ℕ) :
    (let p1_is_sente : Bool := game_idx % 2 == 0
     let senteFn := if p1_is_sente then f1 else f2
     let goteFn := if p1_is_sente then f2 else f1
     let fin := playGame g senteFn goteFn initial max_moves
     if g.winner fin.1 = none ∨ fin.2 ≥ max_moves then
       (acc.1, acc.2.1, acc.2.2 + 1)
     else if (g.winner fin.1 = some 0 ∧ p1_is_sente = true) ∨
         (g.winner fin.1 = some 1 ∧ p1_is_sente = false) then
       (acc.1 + 1, acc.2.1, acc.2.2)
     else
       (acc.1, acc.2.1 + 1, acc.2.2)) =
    addTriple acc (pitGameResult g f1 f2 initial max_moves game_idx) := by
  unfold pitGameResult addTriple
  set fin := playGame g (if (game_idx % 2 == 0 : Bool) then f1 else f2)
    (if (game_idx % 2 == 0 : Bool) then f2 else f1) initial max_moves with hfin
  by_cases h1 : g.winner fin.1 = none ∨ fin.2 ≥ max_moves
  · simp only [if_pos h1]
    simp
  · rw [if_neg h1, if_neg h1]
    by_cases h2 : (g.winner fin.1 = some 0 ∧ (game_idx % 2 == 0 : Bool) = true) ∨
        (g.winner fin.1 = some 1 ∧ (game_idx % 2 == 0 : Bool) = false)
    · rw [if_pos h2, if_pos h2]
      simp
    · rw [if_neg h2, if_neg h2]
      simp

/-- Each game contributes exactly one point in total (helper for C4). -/
theorem pitGameResult_total {σ : Type} (g : GameIface σ) (f1 f2 : σ → ℕ)
    (initial : σ) (max_moves game_idx : ℕ) :
    (pitGameResult g f1 f2 initial max_moves game_idx).1 +
      (pitGameResult g f1 f2 initial max_moves game_idx).2.1 +
      (pitGameResult g f1 f2 initial max_moves game_idx).2.2 = 1 := by
  unfold pitGameResult
  by_cases h1 : g.winner (playGame g
      (if (game_idx % 2 == 0 : Bool) then f1 else f2)
      (if (game_idx % 2 == 0 : Bool) then f2 else f1) initial max_moves).1 = none ∨
      (playGame g (if (game_idx % 2 == 0 : Bool) then f1 else f2)
        (if (game_idx % 2 == 0 : Bool) then f2 else f1) initial max_moves).2 ≥ max_moves
  · simp only [if_pos h1]
  · rw [if_neg h1]
    by_cases h2 : (g.winner (playGame g
        (if (game_idx % 2 == 0 : Bool) then f1 else f2)
        (if (game_idx % 2 == 0 : Bool) then f2 else f1) initial max_moves).1 = some 0 ∧
          ((game_idx % 2 == 0 : Bool) = true)) ∨
        (g.winner (playGame g (if (game_idx % 2 == 0 : Bool) then f1 else f2)
          (if (game_idx % 2 == 0 : Bool) then f2 else f1) initial max_moves).1 = some 1 ∧
          ((game_idx % 2 == 0 : Bool) = false))
    · rw [if_pos h2]
      rfl
    · rw [if_neg h2]
      rfl

/-- `pit` over `n` games decomposes into the sum of the per-game
classifications (helper for C4). -/
theorem pit_eq_sum {σ : Type} (g : GameIface σ) (f1 f2 : σ → ℕ) (initial : σ)
    (n max_moves : ℕ) :
    pit g f1 f2 initial n max_moves =
      (List.range n).foldl
        (fun acc gi => addTriple acc (pitGameResult g f1 f2 initial max_moves gi))
        (0, 0, 0) := by
  unfold pit
  congr 1
  funext acc gi
  exact pit_step_eq g f1 f2 initial max_moves acc gi

/-! ## C4: arena bookkeeping -/

/-- Animal board for the C4 counterexample: SENTE giraffe (1,1), GOTE
lion (0,1), SENTE lion (3,1); move 49 captures the lion at once. -/
def Animal.capState : Animal.State :=
  ⟨⟨[ none, some ⟨.lion, .gote⟩, none,
      none, some ⟨.giraffe, .sente⟩, none,
      none, none, none,
      none, some ⟨.lion, .sente⟩, none ], ([], [])⟩, .sente, 0⟩

/-- C4 counterexample: with `num_games = 1` and `max_moves = 1`, the first
game ends after one move with the non-None winner 0 (player A playing
SENTE in the even game), yet `pit` counts it as a draw because
`move_count >= max_moves` takes precedence over the winner. -/
theorem C4_arena_counterexample :
    pit Animal.iface (fun _ => 49) (fun _ => 0) Animal.capState 1 1 = (0, 0, 1) ∧
    Animal.iface.winner
      (playGame Animal.iface (fun _ => 49) (fun _ => 0) Animal.capState 1).1 = some 0 ∧
    (playGame Animal.iface (fun _ => 49) (fun _ => 0) Animal.capState 1).2 = 1 :=
  ⟨by decide, by decide, by decide⟩

/-- C4 (amended): every arena game is played until the state is terminal
or the move counter reaches `max_moves` (never beyond); `pit` is the sum
over the games of a per-game classification in which a game is a draw
when its final state has no winner **or** the cap was reached (even when
the final state has a winner), and a game finishing with a non-None
winner strictly before the cap is credited to player A exactly when the
winner's seat is A's seat of that game (A is SENTE in even games); wins
and draws add up to `num_games`. -/
theorem C4_arena_accounting {σ : Type} (g : GameIface σ) (f1 f2 : σ → ℕ)
    (initial : σ) (n max_moves : ℕ) :
    ((pit g f1 f2 initial n max_moves).1 + (pit g f1 f2 initial n max_moves).2.1 +
      (pit g f1 f2 initial n max_moves).2.2 = n) ∧
    (∀ sfn gfn : σ → ℕ,
      (playGame g sfn gfn initial max_moves).2 ≤ max_moves ∧
      (g.isTerminal (playGame g sfn gfn initial max_moves).1 = true ∨
        (playGame g sfn gfn initial max_moves).2 = max_moves)) ∧
    (pit g f1 f2 initial n max_moves =
      (List.range n).foldl
        (fun acc gi => addTriple acc (pitGameResult g f1 f2 initial max_moves gi))
        (0, 0, 0)) := by
  refine ⟨?_, ?_, pit_eq_sum g f1 f2 initial n max_moves⟩
  · rw [pit_eq_sum]
    have key : ∀ (l : List ℕ) (acc : ℕ × ℕ × ℕ),
        (l.foldl (fun acc gi => addTriple acc (pitGameResult g f1 f2 initial max_moves gi))
          acc).1 +
        (l.foldl (fun acc gi => addTriple acc (pitGameResult g f1 f2 initial max_moves gi))
          acc).2.1 +
        (l.foldl (fun acc gi => addTriple acc (pitGameResult g f1 f2 initial max_moves gi))
          acc).2.2 = acc.1 + acc.2.1 + acc.2.2 + l.length := by
      intro l
      induction l with
      | nil => intro acc; simp
      | cons x xs ih =>
        intro acc
        simp only [List.foldl_cons, List.length_cons]
        rw [ih]
        have := pitGameResult_total g f1 f2 initial max_moves x
        unfold addTriple
        dsimp only
        omega
    rw [key]
    simp
  · intro sfn gfn
    have h := pitLoop_exit g sfn gfn max_moves max_moves initial 0 (by omega)
    exact ⟨h.1, h.2.symm.symm⟩

/-! ## MCTS (engine/mcts.py)

The tree search is embedded over exact rationals.  Two genuinely
irrational float operations — `math.sqrt` in the PUCT bonus and
`visit_count ** (1.0 / temperature)` in the output weighting — are
parameters (`FloatOps`); theorems assume of the weighting only what the
real function satisfies for a positive temperature: `0 ** x = 0` and
positivity on positive counts.  The network evaluation (`_evaluate`,
a masked softmax plus a value head) and the sampled Dirichlet noise
vector are likewise parameters: the distribution properties proved here
hold for every network output and noise sample. -/

/-- `MCTSConfig` (floats as rationals; defaults 50, 1.4, 1.0, 0.3, 0.25). -/
structure MCTSConfig where
  num_simulations : ℕ := 50
  c_puct : ℚ := 7 / 5
  temperature : ℚ := 1
  dirichlet_alpha : ℚ := 3 / 10
  dirichlet_epsilon : ℚ := 1 / 4

/-- The two irrational float operations used by MCTS. -/
structure FloatOps where
  sqrtQ : ℚ → ℚ
  powVisit : ℚ → ℕ → ℚ

/-- `MCTSNode`: visit count, total value, prior, and the children dict
(an insertion-ordered association list, like a Python dict). -/
inductive MCTSNode where
  | mk (visit_count : ℕ) (total_value : ℚ) (prior : ℚ)
      (children : List (ℕ × MCTSNode))

/-- Visit count accessor. -/
def MCTSNode.visit_count : MCTSNode → ℕ
  | .mk v _ _ _ => v

/-- Total value accessor. -/
def MCTSNode.total_value : MCTSNode → ℚ
  | .mk _ t _ _ => t

/-- Prior accessor. -/
def MCTSNode.prior : MCTSNode → ℚ
  | .mk _ _ p _ => p

/-- Children accessor. -/
def MCTSNode.children : MCTSNode → List (ℕ × MCTSNode)
  | .mk _ _ _ ch => ch

theorem MCTSNode.visit_count_mk (a : ℕ) (b c : ℚ) (d : List (ℕ × MCTSNode)) :
    (MCTSNode.mk a b c d).visit_count = a := rfl

theorem MCTSNode.children_mk (a : ℕ) (b c : ℚ) (d : List (ℕ × MCTSNode)) :
    (MCTSNode.mk a b c d).children = d := rfl

/-- `q_value`: `total_value / visit_count`, 0 on a zero-visit node. -/
def MCTSNode.q_value (n : MCTSNode) : ℚ :=
  if n.visit_count = 0 then 0 else n.total_value / (n.visit_count : ℚ)

/-- `dict[key] = value` on an insertion-ordered association list:
replace in place, else append. -/
def upsert : List (ℕ × MCTSNode) → ℕ → MCTSNode → List (ℕ × MCTSNode)
  | [], k, v => [(k, v)]
  | (k0, v0) :: rest, k, v =>
    if k0 = k then (k0, v) :: rest else (k0, v0) :: upsert rest k v

/-- Replace the value stored under an existing key (in-place mutation of
a child object). -/
def replaceChild (l : List (ℕ × MCTSNode)) (k : ℕ) (v : MCTSNode) :
    List (ℕ × MCTSNode) :=
  l.map (fun kv => if kv.1 = k then (k, v) else kv)

/-- `children[move]` where the selector may have returned the −1 sentinel. -/
def lookupChild (l : List (ℕ × MCTSNode)) (m : ℤ) : Option MCTSNode :=
  if m < 0 then none else l.lookup m.toNat

/-- The loop body of `_select_child`: update the running best move and
best score with one child\'s PUCT value (the `none` option models the
`float("-inf")` seed; any finite PUCT beats it). -/
def selectStep (c_puct sqrt_parent : ℚ) (best : ℤ × Option ℚ)
    (kv : ℕ × MCTSNode) : ℤ × Option ℚ :=
  let puct := kv.2.q_value +
    c_puct * kv.2.prior * sqrt_parent / (1 + (kv.2.visit_count : ℚ))
  match best.2 with
  | none => ((kv.1 : ℤ), some puct)
  | some b => if b < puct then ((kv.1 : ℤ), some puct) else best

/-- `_select_child`: PUCT argmax over the children, starting from
`best_move = -1`, `best_score = float("-inf")`. -/
def selectChild (ops : FloatOps) (cfg : MCTSConfig)
    (children : List (ℕ × MCTSNode)) : ℤ :=
  let parent_n : ℕ := (children.map (fun kv => kv.2.visit_count)).sum
  let sqrt_parent := ops.sqrtQ ((parent_n : ℚ) + 1)
  (children.foldl (selectStep cfg.c_puct sqrt_parent) (-1, none)).1

/-- The value of a terminal state from the current player's view. -/
def terminalValue {σ : Type} (g : GameIface σ) (s : σ) : ℚ :=
  match g.winner s with
  | none => 0
  | some w => if w = g.currentPlayerVal s then 1 else -1

/-- Membership of a looked-up child (helper for the termination proof and
for the root lemmas). -/
theorem lookupChild_mem {l : List (ℕ × MCTSNode)} {m : ℤ} {c : MCTSNode}
    (h : lookupChild l m = some c) : ∃ k : ℕ, (k, c) ∈ l := by
  unfold lookupChild at h
  by_cases hm : m < 0
  · rw [if_pos hm] at h
    exact absurd h (by simp)
  · rw [if_neg hm] at h
    induction l with
    | nil => exact absurd h (by simp [List.lookup])
    | cons kv rest ih =>
      rcases kv with ⟨k0, v0⟩
      rw [List.lookup_cons] at h
      by_cases he : (m.toNat == k0) = true
      · rw [he] at h
        simp only [Option.some.injEq] at h
        exact ⟨k0, by rw [h]; exact List.mem_cons_self _ _⟩
      · rw [Bool.eq_false_iff.mpr he] at h
        obtain ⟨k, hk⟩ := ih h
        exact ⟨k, List.mem_cons_of_mem _ hk⟩

/-- `MCTS._simulate`: terminal states return the game value; a childless
leaf is expanded with priors from the evaluation and returns the value
estimate; otherwise the PUCT child is selected, simulated recursively
with a sign flip, and its statistics are updated.  (The source would
raise `KeyError` if the selected key were absent; the selector always
returns a present key, and the embedding returns the node unchanged in
that unreachable branch.) -/
def simulate {σ : Type} (g : GameIface σ) (ops : FloatOps) (cfg : MCTSConfig)
    (ev : σ → (ℕ → ℚ) × ℚ) : MCTSNode → σ → MCTSNode × ℚ
  | .mk v t p ch, s =>
    if g.isTerminal s then (.mk v t p ch, terminalValue g s)
    else if ch.isEmpty then
      (.mk v t p ((g.legalMoves s).foldl
        (fun ch2 m => upsert ch2 m (.mk 0 0 ((ev s).1 m) [])) ch), (ev s).2)
    else
      let m := selectChild ops cfg ch
      match hc : lookupChild ch m with
      | none => (.mk v t p ch, 0)
      | some child =>
        let r := simulate g ops cfg ev child (g.applyMove s m.toNat)
        let value := -r.2
        let child2 := MCTSNode.mk (r.1.visit_count + 1) (r.1.total_value + value)
          r.1.prior r.1.children
        (.mk v t p (replaceChild ch m.toNat child2), value)
termination_by n _ => sizeOf n
decreasing_by
  obtain ⟨k, hk⟩ := lookupChild_mem hc
  have h1 : sizeOf (k, child) < sizeOf ch := List.sizeOf_lt_of_mem hk
  simp only [Prod.mk.sizeOf_spec] at h1
  simp only [MCTSNode.mk.sizeOf_spec]
  omega

/-- Python `max(children, key=visit_count)`: the first key with maximal
visit count, in insertion order.  (`max` of an empty dict raises in the
source; the branch that calls this has nonempty children.) -/
def argmaxVisit : List (ℕ × MCTSNode) → ℕ
  | [] => 0
  | (k, c) :: rest =>
    (rest.foldl (fun best kv =>
      if best.2 < kv.2.visit_count then (kv.1, kv.2.visit_count) else best)
      (k, c.visit_count)).1

/-- Root expansion: `root.children[move] = MCTSNode(prior=policy[move])`
for each legal move, in order. -/
def rootChildren0 (policy : ℕ → ℚ) (legal : List ℕ) : List (ℕ × MCTSNode) :=
  legal.foldl (fun ch m => upsert ch m (.mk 0 0 (policy m) [])) []

/-- One step of `_add_dirichlet_noise`: mix `ε · noise[i]` into the prior
of the child at `move`.  (`root.children[move]` always exists; the `none`
branch is unreachable.) -/
def noiseStep (cfg : MCTSConfig) (noise : List ℚ) (ch : List (ℕ × MCTSNode))
    (im : ℕ × ℕ) : List (ℕ × MCTSNode) :=
  match ch.lookup im.2 with
  | none => ch
  | some child => replaceChild ch im.2 (.mk child.visit_count child.total_value
      ((1 - cfg.dirichlet_epsilon) * child.prior +
        cfg.dirichlet_epsilon * noise.getD im.1 0) child.children)

/-- The root children after expansion and Dirichlet noise. -/
def rootChildrenN (cfg : MCTSConfig) (noise : List ℚ) (policy : ℕ → ℚ)
    (legal : List ℕ) : List (ℕ × MCTSNode) :=
  legal.enum.foldl (noiseStep cfg noise) (rootChildren0 policy legal)

/-- The root node after `num_simulations` simulations. -/
def rootAfter {σ : Type} (g : GameIface σ) (ops : FloatOps) (cfg : MCTSConfig)
    (ev : σ → (ℕ → ℚ) × ℚ) (noise : List ℚ) (s : σ) : MCTSNode :=
  (List.range cfg.num_simulations).foldl
    (fun nd _ => (simulate g ops cfg ev nd s).1)
    (.mk 0 0 0 (rootChildrenN cfg noise ((ev s).1) (g.legalMoves s)))

/-- The output stage of `search`: the visit-count-based probability
vector over the action space (argmax at temperature 0, otherwise
`powVisit` weights normalised when their total is positive). -/
def searchOutput (ops : FloatOps) (cfg : MCTSConfig) (actionSpace : ℕ)
    (children : List (ℕ × MCTSNode)) : List ℚ :=
  if cfg.temperature = 0 then
    (List.replicate actionSpace (0 : ℚ)).set (argmaxVisit children) 1
  else
    let total := (children.map
      (fun kv => ops.powVisit cfg.temperature kv.2.visit_count)).sum
    if 0 < total then
      children.foldl (fun v kv =>
        v.set kv.1 (ops.powVisit cfg.temperature kv.2.visit_count / total))
        (List.replicate actionSpace 0)
    else List.replicate actionSpace 0

/-- `MCTS.search`: returns the action-space-length probability vector.
An empty legal set short-circuits to the zero vector; otherwise the root
children are created with the evaluated priors, Dirichlet noise is mixed
into the root priors, `num_simulations` simulations run, and the output
is built from the children's visit counts. -/
def search {σ : Type} (g : GameIface σ) (ops : FloatOps) (cfg : MCTSConfig)
    (ev : σ → (ℕ → ℚ) × ℚ) (noise : List ℚ) (s : σ) : List ℚ :=
  if (g.legalMoves s).isEmpty then List.replicate g.actionSpace 0
  else searchOutput ops cfg g.actionSpace (rootAfter g ops cfg ev noise s).children

/-! ### Association-list bookkeeping for the MCTS lemmas -/

/-- The keys of a children dict, in insertion order. -/
def mctsKeys (l : List (ℕ × MCTSNode)) : List ℕ := l.map Prod.fst

theorem mctsKeys_nil : mctsKeys [] = [] := rfl

theorem mctsKeys_cons (kv : ℕ × MCTSNode) (l : List (ℕ × MCTSNode)) :
    mctsKeys (kv :: l) = kv.1 :: mctsKeys l := rfl

theorem upsert_cons_eq {k0 : ℕ} (v0 : MCTSNode) (rest : List (ℕ × MCTSNode))
    {k : ℕ} (v : MCTSNode) (h : k0 = k) :
    upsert ((k0, v0) :: rest) k v = (k0, v) :: rest := by
  unfold upsert
  rw [if_pos h]

theorem upsert_cons_ne {k0 : ℕ} (v0 : MCTSNode) (rest : List (ℕ × MCTSNode))
    {k : ℕ} (v : MCTSNode) (h : ¬k0 = k) :
    upsert ((k0, v0) :: rest) k v = (k0, v0) :: upsert rest k v := by
  conv_lhs => unfold upsert
  rw [if_neg h]

theorem mem_mctsKeys_upsert (l : List (ℕ × MCTSNode)) (k : ℕ) (v : MCTSNode) (x : ℕ) :
    x ∈ mctsKeys (upsert l k v) ↔ x ∈ mctsKeys l ∨ x = k := by
  induction l with
  | nil => simp [upsert, mctsKeys]
  | cons kv rest ih =>
    rcases kv with ⟨k0, v0⟩
    by_cases h : k0 = k
    · rw [upsert_cons_eq v0 rest v h, mctsKeys_cons, mctsKeys_cons]
      subst h
      simp only [List.mem_cons]
      tauto
    · rw [upsert_cons_ne v0 rest v h, mctsKeys_cons, mctsKeys_cons]
      simp only [List.mem_cons, ih]
      tauto

theorem nodup_mctsKeys_upsert {l : List (ℕ × MCTSNode)} (k : ℕ) (v : MCTSNode)
    (h : (mctsKeys l).Nodup) : (mctsKeys (upsert l k v)).Nodup := by
  induction l with
  | nil => simp [upsert, mctsKeys]
  | cons kv rest ih =>
    rcases kv with ⟨k0, v0⟩
    rw [mctsKeys_cons, List.nodup_cons] at h
    by_cases he : k0 = k
    · rw [upsert_cons_eq v0 rest v he, mctsKeys_cons, List.nodup_cons]
      exact h
    · rw [upsert_cons_ne v0 rest v he, mctsKeys_cons, List.nodup_cons]
      refine ⟨?_, ih h.2⟩
      intro hmem
      rw [mem_mctsKeys_upsert] at hmem
      rcases hmem with hm | hm
      · exact h.1 hm
      · exact he (by simpa using hm)

theorem visits_upsert_zero {l : List (ℕ × MCTSNode)} {k : ℕ} {v : MCTSNode}
    (hv : v.visit_count = 0) (hl : ∀ kv ∈ l, (kv : ℕ × MCTSNode).2.visit_count = 0) :
    ∀ kv ∈ upsert l k v, (kv : ℕ × MCTSNode).2.visit_count = 0 := by
  induction l with
  | nil =>
    intro kv hkv
    simp only [upsert, List.mem_singleton] at hkv
    rw [hkv]
    exact hv
  | cons kv0 rest ih =>
    rcases kv0 with ⟨k0, v0⟩
    intro kv hkv
    by_cases he : k0 = k
    · rw [upsert_cons_eq v0 rest v he] at hkv
      rcases List.mem_cons.mp hkv with h | h
      · rw [h]; exact hv
      · exact hl kv (List.mem_cons_of_mem _ h)
    · rw [upsert_cons_ne v0 rest v he] at hkv
      rcases List.mem_cons.mp hkv with h | h
      · rw [h]; exact hl (k0, v0) (List.mem_cons_self _ _)
      · exact ih (fun kv2 hkv2 => hl kv2 (List.mem_cons_of_mem _ hkv2)) kv h

theorem mem_mctsKeys_foldl_upsert (f : ℕ → MCTSNode) :
    ∀ (ms : List ℕ) (l : List (ℕ × MCTSNode)) (x : ℕ),
      x ∈ mctsKeys (ms.foldl (fun ch m => upsert ch m (f m)) l) ↔
        x ∈ mctsKeys l ∨ x ∈ ms := by
  intro ms
  induction ms with
  | nil => intro l x; simp
  | cons m rest ih =>
    intro l x
    simp only [List.foldl_cons, List.mem_cons]
    rw [ih, mem_mctsKeys_upsert]
    tauto

theorem nodup_mctsKeys_foldl_upsert (f : ℕ → MCTSNode) :
    ∀ (ms : List ℕ) (l : List (ℕ × MCTSNode)), (mctsKeys l).Nodup →
      (mctsKeys (ms.foldl (fun ch m => upsert ch m (f m)) l)).Nodup := by
  intro ms
  induction ms with
  | nil => intro l h; exact h
  | cons m rest ih =>
    intro l h
    exact ih _ (nodup_mctsKeys_upsert m (f m) h)

theorem visits_foldl_upsert_zero (f : ℕ → MCTSNode) (hf : ∀ m, (f m).visit_count = 0) :
    ∀ (ms : List ℕ) (l : List (ℕ × MCTSNode)),
      (∀ kv ∈ l, (kv : ℕ × MCTSNode).2.visit_count = 0) →
      ∀ kv ∈ ms.foldl (fun ch m => upsert ch m (f m)) l,
        (kv : ℕ × MCTSNode).2.visit_count = 0 := by
  intro ms
  induction ms with
  | nil => intro l h; exact h
  | cons m rest ih =>
    intro l h
    exact ih _ (visits_upsert_zero (hf m) h)

theorem foldl_upsert_ne_nil (f : ℕ → MCTSNode) :
    ∀ (ms : List ℕ) (l : List (ℕ × MCTSNode)), l ≠ [] ∨ ms ≠ [] →
      ms.foldl (fun ch m => upsert ch m (f m)) l ≠ [] := by
  have hup : ∀ (l : List (ℕ × MCTSNode)) (k : ℕ) (v : MCTSNode), upsert l k v ≠ [] := by
    intro l k v
    cases l with
    | nil => simp [upsert]
    | cons kv rest =>
      rcases kv with ⟨k0, v0⟩
      by_cases h : k0 = k
      · rw [upsert_cons_eq v0 rest v h]; simp
      · rw [upsert_cons_ne v0 rest v h]; simp
  intro ms
  induction ms with
  | nil =>
    intro l h
    rcases h with h | h
    · exact h
    · exact absurd rfl h
  | cons m rest ih =>
    intro l _
    exact ih _ (Or.inl (hup l m (f m)))

theorem lookup_mem {l : List (ℕ × MCTSNode)} {k : ℕ} {c : MCTSNode}
    (h : l.lookup k = some c) : (k, c) ∈ l := by
  induction l with
  | nil => exact absurd h (by simp [List.lookup])
  | cons kv rest ih =>
    rcases kv with ⟨k0, v0⟩
    rw [List.lookup_cons] at h
    by_cases he : (k == k0) = true
    · rw [he] at h
      simp only [Option.some.injEq] at h
      have hk : k = k0 := by simpa using he
      rw [hk, h]
      exact List.mem_cons_self _ _
    · rw [Bool.eq_false_iff.mpr he] at h
      exact List.mem_cons_of_mem _ (ih h)

theorem lookup_of_mem_mctsKeys {l : List (ℕ × MCTSNode)} {k : ℕ}
    (h : k ∈ mctsKeys l) : ∃ c, l.lookup k = some c := by
  induction l with
  | nil => simp [mctsKeys] at h
  | cons kv rest ih =>
    rcases kv with ⟨k0, v0⟩
    rw [mctsKeys_cons, List.mem_cons] at h
    rw [List.lookup_cons]
    by_cases he : (k == k0) = true
    · rw [he]
      exact ⟨v0, rfl⟩
    · rw [Bool.eq_false_iff.mpr he]
      rcases h with h | h
      · exact absurd (by simpa using h) (by simpa using he)
      · exact ih h

theorem replaceChild_cons (kv : ℕ × MCTSNode) (rest : List (ℕ × MCTSNode))
    (k : ℕ) (v : MCTSNode) :
    replaceChild (kv :: rest) k v =
      (if kv.1 = k then (k, v) else kv) :: replaceChild rest k v := rfl

theorem mctsKeys_replaceChild (l : List (ℕ × MCTSNode)) (k : ℕ) (v : MCTSNode) :
    mctsKeys (replaceChild l k v) = mctsKeys l := by
  induction l with
  | nil => rfl
  | cons kv rest ih =>
    rw [replaceChild_cons, mctsKeys_cons, mctsKeys_cons, ih]
    by_cases h : kv.1 = k
    · rw [if_pos h]
      simp [h]
    · rw [if_neg h]

theorem replaceChild_of_not_mem {l : List (ℕ × MCTSNode)} {k : ℕ} (v : MCTSNode)
    (h : k ∉ mctsKeys l) : replaceChild l k v = l := by
  induction l with
  | nil => rfl
  | cons kv rest ih =>
    rw [mctsKeys_cons, List.mem_cons] at h
    push_neg at h
    rw [replaceChild_cons, if_neg (fun he => h.1 (by rw [he])), ih h.2]

/-- The visit-count bookkeeping of an in-place child update: replacing
the (unique) entry at `k` trades its visit count for the new one. -/
theorem visits_sum_replaceChild {l : List (ℕ × MCTSNode)} {k : ℕ} {c : MCTSNode}
    (v : MCTSNode) (hnd : (mctsKeys l).Nodup) (hmem : (k, c) ∈ l) :
    ((replaceChild l k v).map (fun kv => kv.2.visit_count)).sum + c.visit_count =
      (l.map (fun kv => kv.2.visit_count)).sum + v.visit_count := by
  induction l with
  | nil => simp at hmem
  | cons kv rest ih =>
    rcases kv with ⟨k0, v0⟩
    rw [mctsKeys_cons, List.nodup_cons] at hnd
    rcases List.mem_cons.mp hmem with hh | hh
    · have hk0 : k0 = k := (congrArg Prod.fst hh).symm
      have hv0 : v0 = c := (congrArg Prod.snd hh).symm
      subst hk0
      subst hv0
      rw [replaceChild_cons, if_pos rfl,
        replaceChild_of_not_mem v (by simpa using hnd.1)]
      simp only [List.map_cons, List.sum_cons]
      omega
    · have hkk0 : ¬k0 = k := by
        intro he
        subst he
        exact hnd.1 (by simpa [mctsKeys] using List.mem_map_of_mem Prod.fst hh)
      rw [replaceChild_cons, if_neg hkk0]
      have hih := ih hnd.2 hh
      simp only [List.map_cons, List.sum_cons]
      omega

/-! ### Behaviour of one simulation -/

/-- On a terminal state a simulation changes nothing and returns the game
value. -/
theorem simulate_terminal {σ : Type} (g : GameIface σ) (ops : FloatOps)
    (cfg : MCTSConfig) (ev : σ → (ℕ → ℚ) × ℚ) (n : MCTSNode) (s : σ)
    (h : g.isTerminal s = true) :
    simulate g ops cfg ev n s = (n, terminalValue g s) := by
  cases n with
  | mk v t p ch =>
    rw [simulate]
    rw [if_pos h]

/-- The PUCT fold keeps the seed key or picks a key of the list. -/
theorem selectFold_mem (step : (ℤ × Option ℚ) → (ℕ × MCTSNode) → (ℤ × Option ℚ))
    (hstep : ∀ b kv, (step b kv).1 = b.1 ∨ (step b kv).1 = ((kv : ℕ × MCTSNode).1 : ℤ)) :
    ∀ (l : List (ℕ × MCTSNode)) (b : ℤ × Option ℚ),
      (l.foldl step b).1 = b.1 ∨ ∃ k ∈ mctsKeys l, (l.foldl step b).1 = (k : ℤ) := by
  intro l
  induction l with
  | nil => intro b; exact Or.inl rfl
  | cons kv rest ih =>
    intro b
    simp only [List.foldl_cons]
    rcases ih (step b kv) with h | ⟨k, hk, he⟩
    · rcases hstep b kv with h2 | h2
      · rw [h2] at h
        exact Or.inl h
      · rw [h2] at h
        exact Or.inr ⟨kv.1, by rw [mctsKeys_cons]; exact List.mem_cons_self _ _, h⟩
    · exact Or.inr ⟨k, by rw [mctsKeys_cons]; exact List.mem_cons_of_mem _ hk, he⟩

/-- One PUCT step keeps the running best key or takes the child\'s key. -/
theorem selectStep_fst (cp sq : ℚ) (b : ℤ × Option ℚ) (kv : ℕ × MCTSNode) :
    (selectStep cp sq b kv).1 = b.1 ∨ (selectStep cp sq b kv).1 = (kv.1 : ℤ) := by
  unfold selectStep
  cases hb : b.2 with
  | none => exact Or.inr rfl
  | some b2 =>
    by_cases hlt : b2 < kv.2.q_value + cp * kv.2.prior * sq / (1 + (kv.2.visit_count : ℚ))
    · refine Or.inr ?_
      simp only [if_pos hlt]
    · refine Or.inl ?_
      simp only [if_neg hlt]

/-- `_select_child` on a nonempty children dict returns one of its keys
(the first finite PUCT beats the `-inf` seed). -/
theorem selectChild_mem (ops : FloatOps) (cfg : MCTSConfig)
    (children : List (ℕ × MCTSNode)) (hne : children ≠ []) :
    ∃ k ∈ mctsKeys children, selectChild ops cfg children = (k : ℤ) := by
  unfold selectChild
  cases children with
  | nil => exact absurd rfl hne
  | cons kv rest =>
    simp only [List.foldl_cons]
    set sq := ops.sqrtQ
      (((((kv :: rest).map (fun kv => kv.2.visit_count)).sum : ℕ) : ℚ) + 1) with hsq
    have hfirst : (selectStep cfg.c_puct sq ((-1 : ℤ), (none : Option ℚ)) kv).1 =
        (kv.1 : ℤ) := rfl
    rcases selectFold_mem (selectStep cfg.c_puct sq) (selectStep_fst cfg.c_puct sq)
        rest (selectStep cfg.c_puct sq ((-1 : ℤ), (none : Option ℚ)) kv) with h | ⟨k, hk, he⟩
    · rw [hfirst] at h
      exact ⟨kv.1, by rw [mctsKeys_cons]; exact List.mem_cons_self _ _, h⟩
    · exact ⟨k, by rw [mctsKeys_cons]; exact List.mem_cons_of_mem _ hk, he⟩

/-- A simulation never changes the visit count of the node it starts at
(only children accumulate statistics). -/
theorem simulate_fst_visit {σ : Type} (g : GameIface σ) (ops : FloatOps)
    (cfg : MCTSConfig) (ev : σ → (ℕ → ℚ) × ℚ) (n : MCTSNode) (s : σ) :
    (simulate g ops cfg ev n s).1.visit_count = n.visit_count := by
  cases n with
  | mk v t p ch =>
    rw [simulate]
    by_cases h1 : g.isTerminal s = true
    · rw [if_pos h1]
    · rw [if_neg h1]
      by_cases h2 : ch.isEmpty = true
      · rw [if_pos h2]
        rfl
      · rw [if_neg h2]
        dsimp only
        split <;> rfl

/-- One simulation from a non-terminal state on an already-expanded node:
the children keep their keys and their total visit count grows by one. -/
theorem simulate_root_step {σ : Type} (g : GameIface σ) (ops : FloatOps)
    (cfg : MCTSConfig) (ev : σ → (ℕ → ℚ) × ℚ) (v : ℕ) (t p : ℚ)
    (ch : List (ℕ × MCTSNode)) (s : σ)
    (hterm : g.isTerminal s = false) (hne : ch ≠ [])
    (hnd : (mctsKeys ch).Nodup) :
    mctsKeys (simulate g ops cfg ev (.mk v t p ch) s).1.children = mctsKeys ch ∧
    ((simulate g ops cfg ev (.mk v t p ch) s).1.children.map
        (fun kv => kv.2.visit_count)).sum =
      (ch.map (fun kv => kv.2.visit_count)).sum + 1 := by
  obtain ⟨k, hkmem, hksel⟩ := selectChild_mem ops cfg ch hne
  obtain ⟨c, hlook⟩ := lookup_of_mem_mctsKeys hkmem
  have hlc : lookupChild ch (selectChild ops cfg ch) = some c := by
    unfold lookupChild
    rw [hksel, if_neg (by omega)]
    simpa using hlook
  have hmem : (((selectChild ops cfg ch).toNat), c) ∈ ch := by
    rw [hksel]
    simpa using lookup_mem hlook
  rw [simulate]
  rw [if_neg (by rw [hterm]; exact Bool.false_ne_true),
    if_neg (by rw [List.isEmpty_iff]; simpa using hne)]
  dsimp only
  split
  · rename_i heq
    rw [hlc] at heq
    exact absurd heq (by simp)
  · rename_i child heq
    rw [hlc] at heq
    have hcc : child = c := by
      simpa using heq.symm
    subst hcc
    refine ⟨mctsKeys_replaceChild _ _ _, ?_⟩
    have hkey := visits_sum_replaceChild
      (MCTSNode.mk ((simulate g ops cfg ev child
          (g.applyMove s (selectChild ops cfg ch).toNat)).1.visit_count + 1)
        ((simulate g ops cfg ev child
          (g.applyMove s (selectChild ops cfg ch).toNat)).1.total_value +
          -(simulate g ops cfg ev child
            (g.applyMove s (selectChild ops cfg ch).toNat)).2)
        (simulate g ops cfg ev child
          (g.applyMove s (selectChild ops cfg ch).toNat)).1.prior
        (simulate g ops cfg ev child
          (g.applyMove s (selectChild ops cfg ch).toNat)).1.children)
      hnd hmem
    have hvc : (simulate g ops cfg ev child
        (g.applyMove s (selectChild ops cfg ch).toNat)).1.visit_count =
        child.visit_count := simulate_fst_visit g ops cfg ev child _
    rw [MCTSNode.visit_count_mk] at hkey
    simp only [MCTSNode.children_mk]
    omega

/-- Running the simulation loop from a non-terminal root keeps the root
children's keys and raises their total visit count by the number of
simulations. -/
theorem root_iterate {σ : Type} (g : GameIface σ) (ops : FloatOps)
    (cfg : MCTSConfig) (ev : σ → (ℕ → ℚ) × ℚ) (s : σ)
    (hterm : g.isTerminal s = false) :
    ∀ (n : ℕ) (node : MCTSNode), node.children ≠ [] →
      (mctsKeys node.children).Nodup →
      mctsKeys ((List.range n).foldl
        (fun nd _ => (simulate g ops cfg ev nd s).1) node).children =
        mctsKeys node.children ∧
      (((List.range n).foldl (fun nd _ => (simulate g ops cfg ev nd s).1)
          node).children.map (fun kv => kv.2.visit_count)).sum =
        (node.children.map (fun kv => kv.2.visit_count)).sum + n := by
  intro n
  induction n with
  | zero => intro node _ _; simp
  | succ m ih =>
    intro node hne hnd
    rw [List.range_succ, List.foldl_append, List.foldl_cons, List.foldl_nil]
    obtain ⟨h1, h2⟩ := ih node hne hnd
    have hmidne : ((List.range m).foldl
        (fun nd _ => (simulate g ops cfg ev nd s).1) node).children ≠ [] := by
      intro hc
      rw [hc] at h1
      have : mctsKeys node.children = [] := h1.symm
      exact hne (List.map_eq_nil_iff.mp this)
    have hmidnd : (mctsKeys ((List.range m).foldl
        (fun nd _ => (simulate g ops cfg ev nd s).1) node).children).Nodup := by
      rw [h1]; exact hnd
    rcases hmid : (List.range m).foldl (fun nd _ => (simulate g ops cfg ev nd s).1) node
      with ⟨v, t, p, ch2⟩
    rw [hmid] at h1 h2 hmidne hmidnd
    simp only [MCTSNode.children_mk] at h1 h2 hmidne hmidnd
    obtain ⟨hs1, hs2⟩ := simulate_root_step g ops cfg ev v t p ch2 s hterm hmidne hmidnd
    constructor
    · rw [hs1, h1]
    · rw [hs2, h2]
      omega

/-! ### Output-vector lemmas -/

theorem getD_set_ne_q (v : List ℚ) (i j : ℕ) (x : ℚ) (hij : i ≠ j) :
    ((v.set i x).getD j 0) = v.getD j 0 := by
  rw [List.getD_eq_getElem?_getD, List.getD_eq_getElem?_getD, List.getElem?_set_ne hij]

theorem getD_replicate_zero (n i : ℕ) : (List.replicate n (0 : ℚ)).getD i 0 = 0 := by
  induction n generalizing i with
  | zero => simp
  | succ m ih =>
    cases i with
    | zero => simp [List.replicate]
    | succ j =>
      rw [List.replicate]
      simpa using ih j

theorem sum_set_of_getD_zero :
    ∀ (v : List ℚ) (k : ℕ) (x : ℚ), k < v.length → v.getD k 0 = 0 →
      (v.set k x).sum = v.sum + x := by
  intro v
  induction v with
  | nil => intro k x hk; simp at hk
  | cons a tl ih =>
    intro k x hk h0
    cases k with
    | zero =>
      simp only [List.getD_eq_getElem?_getD] at h0
      simp only [List.getElem?_cons_zero, Option.getD_some] at h0
      rw [h0]
      simp only [List.set, List.sum_cons]
      ring
    | succ j =>
      simp only [List.set, List.sum_cons]
      rw [ih j x (by simpa using hk) (by simpa [List.getD_eq_getElem?_getD] using h0)]
      ring

theorem length_foldl_set (f : ℕ × MCTSNode → ℚ) :
    ∀ (l : List (ℕ × MCTSNode)) (base : List ℚ),
      (l.foldl (fun v2 kv => v2.set kv.1 (f kv)) base).length = base.length := by
  intro l
  induction l with
  | nil => intro base; rfl
  | cons kv rest ih =>
    intro base
    rw [List.foldl_cons, ih, List.length_set]

theorem getD_foldl_set_not_mem (f : ℕ × MCTSNode → ℚ) :
    ∀ (l : List (ℕ × MCTSNode)) (base : List ℚ) (i : ℕ), i ∉ mctsKeys l →
      (l.foldl (fun v2 kv => v2.set kv.1 (f kv)) base).getD i 0 = base.getD i 0 := by
  intro l
  induction l with
  | nil => intro base i _; rfl
  | cons kv rest ih =>
    intro base i hi
    rw [mctsKeys_cons, List.mem_cons] at hi
    push_neg at hi
    rw [List.foldl_cons, ih _ _ hi.2, getD_set_ne_q _ _ _ _ (fun he => hi.1 (by rw [he]))]

theorem sum_foldl_set (f : ℕ × MCTSNode → ℚ) :
    ∀ (l : List (ℕ × MCTSNode)) (base : List ℚ),
      (∀ kv ∈ l, (kv : ℕ × MCTSNode).1 < base.length) → (mctsKeys l).Nodup →
      (∀ kv ∈ l, base.getD (kv : ℕ × MCTSNode).1 0 = 0) →
      (l.foldl (fun v2 kv => v2.set kv.1 (f kv)) base).sum =
        base.sum + (l.map f).sum := by
  intro l
  induction l with
  | nil => intro base _ _ _; simp
  | cons kv rest ih =>
    intro base hlen hnd h0
    rw [mctsKeys_cons, List.nodup_cons] at hnd
    rw [List.foldl_cons, List.map_cons, List.sum_cons]
    have hkl : kv.1 < base.length := hlen kv (List.mem_cons_self _ _)
    rw [ih (base.set kv.1 (f kv))
      (fun kv2 h2 => by rw [List.length_set]; exact hlen kv2 (List.mem_cons_of_mem _ h2))
      hnd.2
      (fun kv2 h2 => by
        rw [getD_set_ne_q _ _ _ _ (fun he => hnd.1
          (by rw [he]; exact List.mem_map_of_mem Prod.fst h2))]
        exact h0 kv2 (List.mem_cons_of_mem _ h2))]
    rw [sum_set_of_getD_zero base kv.1 (f kv) hkl (h0 kv (List.mem_cons_self _ _))]
    ring

/-- Python `max` over a nonempty children dict returns one of its keys. -/
theorem argmaxVisit_mem (l : List (ℕ × MCTSNode)) (hne : l ≠ []) :
    argmaxVisit l ∈ mctsKeys l := by
  cases l with
  | nil => exact absurd rfl hne
  | cons kv rest =>
    rcases kv with ⟨k, c⟩
    unfold argmaxVisit
    show ((rest.foldl (fun best kv2 =>
      if best.2 < kv2.2.visit_count then (kv2.1, kv2.2.visit_count) else best)
      (k, c.visit_count)).1) ∈ mctsKeys ((k, c) :: rest)
    have key : ∀ (rl : List (ℕ × MCTSNode)) (b : ℕ × ℕ),
        (rl.foldl (fun best kv2 =>
          if best.2 < kv2.2.visit_count then (kv2.1, kv2.2.visit_count) else best) b).1 = b.1 ∨
        (rl.foldl (fun best kv2 =>
          if best.2 < kv2.2.visit_count then (kv2.1, kv2.2.visit_count) else best) b).1 ∈
          mctsKeys rl := by
      intro rl
      induction rl with
      | nil => intro b; exact Or.inl rfl
      | cons kv2 rest2 ih =>
        intro b
        rw [List.foldl_cons]
        by_cases hlt : b.2 < kv2.2.visit_count
        · rw [if_pos hlt]
          rcases ih (kv2.1, kv2.2.visit_count) with h | h
          · refine Or.inr ?_
            rw [h, mctsKeys_cons]
            exact List.mem_cons_self _ _
          · refine Or.inr ?_
            rw [mctsKeys_cons]
            exact List.mem_cons_of_mem _ h
        · rw [if_neg hlt]
          rcases ih b with h | h
          · exact Or.inl h
          · refine Or.inr ?_
            rw [mctsKeys_cons]
            exact List.mem_cons_of_mem _ h
    rcases key rest (k, c.visit_count) with h | h
    · rw [h, mctsKeys_cons]
      exact List.mem_cons_self _ _
    · rw [mctsKeys_cons]
      exact List.mem_cons_of_mem _ h

/-- A sum of nonnegative rationals with a positive member is positive. -/
theorem sum_pos_of_mem_pos :
    ∀ (l : List ℚ), (∀ x ∈ l, 0 ≤ x) → ∀ y ∈ l, 0 < y → 0 < l.sum := by
  intro l
  induction l with
  | nil => intro _ y hy; simp at hy
  | cons a tl ih =>
    intro hnn y hy hypos
    rw [List.sum_cons]
    rcases List.mem_cons.mp hy with h | h
    · have htl : 0 ≤ tl.sum :=
        List.sum_nonneg (fun x hx => hnn x (List.mem_cons_of_mem _ hx))
      have : 0 < a := h ▸ hypos
      linarith
    · have ha : 0 ≤ a := hnn a (List.mem_cons_self _ _)
      have := ih (fun x hx => hnn x (List.mem_cons_of_mem _ hx)) y h hypos
      linarith

/-- Dividing a mapped sum by a nonzero total. -/
theorem sum_map_div_q (t : ℚ) (ht : t ≠ 0) (f : ℕ × MCTSNode → ℚ) :
    ∀ l : List (ℕ × MCTSNode), (l.map (fun kv => f kv / t)).sum = (l.map f).sum / t := by
  intro l
  induction l with
  | nil => simp
  | cons kv rest ih =>
    simp only [List.map_cons, List.sum_cons, ih]
    field_simp

/-- If a list of naturals sums to a positive number, some member is
positive. -/
theorem exists_pos_of_sum_pos (l : List (ℕ × MCTSNode))
    (h : 0 < (l.map (fun kv => kv.2.visit_count)).sum) :
    ∃ kv ∈ l, 0 < (kv : ℕ × MCTSNode).2.visit_count := by
  induction l with
  | nil => simp at h
  | cons kv rest ih =>
    rw [List.map_cons, List.sum_cons] at h
    by_cases hk : 0 < kv.2.visit_count
    · exact ⟨kv, List.mem_cons_self _ _, hk⟩
    · have : 0 < (rest.map (fun kv => kv.2.visit_count)).sum := by omega
      obtain ⟨kv2, hkv2, hpos⟩ := ih this
      exact ⟨kv2, List.mem_cons_of_mem _ hkv2, hpos⟩

/-- Replacing the unique entry at a key with a node of equal visit count
leaves the visit-count profile unchanged. -/
theorem visits_map_replaceChild {l : List (ℕ × MCTSNode)} {k : ℕ} {c : MCTSNode}
    (v : MCTSNode) (hnd : (mctsKeys l).Nodup) (hmem : (k, c) ∈ l)
    (hv : v.visit_count = c.visit_count) :
    (replaceChild l k v).map (fun kv => kv.2.visit_count) =
      l.map (fun kv => kv.2.visit_count) := by
  induction l with
  | nil => simp at hmem
  | cons kv0 rest ih =>
    rcases kv0 with ⟨k0, v0⟩
    rw [mctsKeys_cons, List.nodup_cons] at hnd
    rcases List.mem_cons.mp hmem with hh | hh
    · have hk0 : k0 = k := (congrArg Prod.fst hh).symm
      have hv0 : v0 = c := (congrArg Prod.snd hh).symm
      subst hk0
      subst hv0
      rw [replaceChild_cons, if_pos rfl,
        replaceChild_of_not_mem v (by simpa using hnd.1)]
      simp only [List.map_cons]
      rw [show ((k0, v) : ℕ × MCTSNode).2.visit_count = v.visit_count from rfl, hv]
    · have hkk0 : ¬k0 = k := by
        intro he
        subst he
        exact hnd.1 (by simpa [mctsKeys] using List.mem_map_of_mem Prod.fst hh)
      rw [replaceChild_cons, if_neg hkk0]
      simp only [List.map_cons]
      rw [ih hnd.2 hh]

/-- The expanded root children: keys are exactly the legal moves (no
duplicates), all visit counts are zero, and the dict is nonempty when a
legal move exists. -/
theorem rootChildren0_spec (policy : ℕ → ℚ) (legal : List ℕ) :
    (∀ x, x ∈ mctsKeys (rootChildren0 policy legal) ↔ x ∈ legal) ∧
    (mctsKeys (rootChildren0 policy legal)).Nodup ∧
    (∀ kv ∈ rootChildren0 policy legal, (kv : ℕ × MCTSNode).2.visit_count = 0) ∧
    (legal ≠ [] → rootChildren0 policy legal ≠ []) := by
  unfold rootChildren0
  refine ⟨?_, ?_, ?_, ?_⟩
  · intro x
    have h := mem_mctsKeys_foldl_upsert (fun m => MCTSNode.mk 0 0 (policy m) []) legal [] x
    simpa [mctsKeys] using h
  · exact nodup_mctsKeys_foldl_upsert (fun m => MCTSNode.mk 0 0 (policy m) []) legal []
      (by simp [mctsKeys])
  · exact visits_foldl_upsert_zero (fun m => MCTSNode.mk 0 0 (policy m) [])
      (fun m => rfl) legal [] (by simp)
  · intro h
    exact foldl_upsert_ne_nil (fun m => MCTSNode.mk 0 0 (policy m) []) legal [] (Or.inr h)

/-- Dirichlet noise changes only priors: keys and visit counts survive. -/
theorem noise_fold_profile (cfg : MCTSConfig) (noise : List ℚ) :
    ∀ (ims : List (ℕ × ℕ)) (ch : List (ℕ × MCTSNode)), (mctsKeys ch).Nodup →
      mctsKeys (ims.foldl (noiseStep cfg noise) ch) = mctsKeys ch ∧
      (ims.foldl (noiseStep cfg noise) ch).map (fun kv => kv.2.visit_count) =
        ch.map (fun kv => kv.2.visit_count) := by
  intro ims
  induction ims with
  | nil => intro ch _; exact ⟨rfl, rfl⟩
  | cons im rest ih =>
    intro ch hnd
    rw [List.foldl_cons]
    have hstep : mctsKeys (noiseStep cfg noise ch im) = mctsKeys ch ∧
        (noiseStep cfg noise ch im).map (fun kv => kv.2.visit_count) =
          ch.map (fun kv => kv.2.visit_count) := by
      unfold noiseStep
      rcases hl : ch.lookup im.2 with _ | child
      · exact ⟨rfl, rfl⟩
      · have hmem := lookup_mem hl
        refine ⟨mctsKeys_replaceChild _ _ _, ?_⟩
        exact visits_map_replaceChild _ hnd hmem rfl
    have hnd2 : (mctsKeys (noiseStep cfg noise ch im)).Nodup := by
      rw [hstep.1]; exact hnd
    obtain ⟨ih1, ih2⟩ := ih (noiseStep cfg noise ch im) hnd2
    exact ⟨by rw [ih1, hstep.1], by rw [ih2, hstep.2]⟩

/-- The root node after the simulation loop: its children's keys are the
legal moves, without duplicates; the total visit count is 0 on a terminal
state and `num_simulations` otherwise; the dict is nonempty. -/
theorem rootAfter_spec {σ : Type} (g : GameIface σ) (ops : FloatOps)
    (cfg : MCTSConfig) (ev : σ → (ℕ → ℚ) × ℚ) (noise : List ℚ) (s : σ)
    (hne : g.legalMoves s ≠ []) :
    (∀ x, x ∈ mctsKeys (rootAfter g ops cfg ev noise s).children ↔
      x ∈ g.legalMoves s) ∧
    (mctsKeys (rootAfter g ops cfg ev noise s).children).Nodup ∧
    (g.isTerminal s = true →
      ∀ kv ∈ (rootAfter g ops cfg ev noise s).children,
        (kv : ℕ × MCTSNode).2.visit_count = 0) ∧
    (g.isTerminal s = false →
      (((rootAfter g ops cfg ev noise s).children).map
        (fun kv => kv.2.visit_count)).sum = cfg.num_simulations) ∧
    (rootAfter g ops cfg ev noise s).children ≠ [] := by
  obtain ⟨h0mem, h0nd, h0vis, h0ne⟩ := rootChildren0_spec ((ev s).1) (g.legalMoves s)
  obtain ⟨hNkeys, hNvis⟩ := noise_fold_profile cfg noise (g.legalMoves s).enum
    (rootChildren0 ((ev s).1) (g.legalMoves s)) h0nd
  have hNmem : ∀ x, x ∈ mctsKeys (rootChildrenN cfg noise ((ev s).1) (g.legalMoves s)) ↔
      x ∈ g.legalMoves s := by
    intro x
    unfold rootChildrenN
    rw [hNkeys]
    exact h0mem x
  have hNnd : (mctsKeys (rootChildrenN cfg noise ((ev s).1) (g.legalMoves s))).Nodup := by
    unfold rootChildrenN
    rw [hNkeys]
    exact h0nd
  have hNvisz : ∀ kv ∈ rootChildrenN cfg noise ((ev s).1) (g.legalMoves s),
      (kv : ℕ × MCTSNode).2.visit_count = 0 := by
    intro kv hkv
    have hx : kv.2.visit_count ∈ (rootChildrenN cfg noise ((ev s).1)
        (g.legalMoves s)).map (fun kv => kv.2.visit_count) :=
      List.mem_map_of_mem _ hkv
    rw [show (rootChildrenN cfg noise ((ev s).1) (g.legalMoves s)).map
        (fun kv => kv.2.visit_count) = (rootChildren0 ((ev s).1)
          (g.legalMoves s)).map (fun kv => kv.2.visit_count) from hNvis] at hx
    obtain ⟨kv2, hkv2, he⟩ := List.mem_map.mp hx
    rw [← he]
    exact h0vis kv2 hkv2
  have hNne : rootChildrenN cfg noise ((ev s).1) (g.legalMoves s) ≠ [] := by
    intro hcontra
    have : mctsKeys (rootChildrenN cfg noise ((ev s).1) (g.legalMoves s)) = [] := by
      rw [hcontra]; rfl
    unfold rootChildrenN at this
    rw [hNkeys] at this
    exact (h0ne hne) (List.map_eq_nil_iff.mp this)
  by_cases hterm : g.isTerminal s = true
  · have hid : ∀ n : ℕ, (List.range n).foldl
        (fun nd _ => (simulate g ops cfg ev nd s).1)
        (.mk 0 0 0 (rootChildrenN cfg noise ((ev s).1) (g.legalMoves s))) =
        (.mk 0 0 0 (rootChildrenN cfg noise ((ev s).1) (g.legalMoves s))) := by
      intro n
      induction n with
      | zero => rfl
      | succ m ihm =>
        rw [List.range_succ, List.foldl_append, List.foldl_cons, List.foldl_nil, ihm,
          simulate_terminal g ops cfg ev _ s hterm]
    have hroot : rootAfter g ops cfg ev noise s =
        (.mk 0 0 0 (rootChildrenN cfg noise ((ev s).1) (g.legalMoves s))) := by
      unfold rootAfter
      exact hid cfg.num_simulations
    rw [hroot]
    simp only [MCTSNode.children_mk]
    refine ⟨hNmem, hNnd, fun _ => hNvisz, fun hf => absurd hterm (by rw [hf]; simp), hNne⟩
  · have hterm2 : g.isTerminal s = false := by
      rcases Bool.eq_false_or_eq_true (g.isTerminal s) with h | h
      · exact absurd h hterm
      · exact h
    have hiter := root_iterate g ops cfg ev s hterm2 cfg.num_simulations
      (.mk 0 0 0 (rootChildrenN cfg noise ((ev s).1) (g.legalMoves s)))
      (by simpa only [MCTSNode.children_mk] using hNne)
      (by simpa only [MCTSNode.children_mk] using hNnd)
    simp only [MCTSNode.children_mk] at hiter
    obtain ⟨hk, hv⟩ := hiter
    have hkeys : mctsKeys (rootAfter g ops cfg ev noise s).children =
        mctsKeys (rootChildrenN cfg noise ((ev s).1) (g.legalMoves s)) := hk
    have hvissum0 : ((rootChildrenN cfg noise ((ev s).1) (g.legalMoves s)).map
        (fun kv => kv.2.visit_count)).sum = 0 := by
      apply List.sum_eq_zero
      intro x hx
      obtain ⟨kv2, hkv2, he⟩ := List.mem_map.mp hx
      rw [← he]
      exact hNvisz kv2 hkv2
    refine ⟨?_, ?_, fun ht => absurd ht (by rw [hterm2]; simp), fun _ => ?_, ?_⟩
    · intro x
      rw [hkeys]
      exact hNmem x
    · rw [hkeys]
      exact hNnd
    · have hv2 : (((rootAfter g ops cfg ev noise s).children).map
          (fun kv => kv.2.visit_count)).sum =
          ((rootChildrenN cfg noise ((ev s).1) (g.legalMoves s)).map
            (fun kv => kv.2.visit_count)).sum + cfg.num_simulations := hv
      rw [hv2, hvissum0]
      omega
    · intro hcontra
      have : mctsKeys (rootAfter g ops cfg ev noise s).children = [] := by
        rw [hcontra]; rfl
      rw [hkeys] at this
      unfold rootChildrenN at this
      rw [hNkeys] at this
      exact (h0ne hne) (List.map_eq_nil_iff.mp this)

/-! ### The output stage -/

theorem searchOutput_length (ops : FloatOps) (cfg : MCTSConfig) (actionSpace : ℕ)
    (children : List (ℕ × MCTSNode)) :
    (searchOutput ops cfg actionSpace children).length = actionSpace := by
  unfold searchOutput
  by_cases ht : cfg.temperature = 0
  · rw [if_pos ht, List.length_set, List.length_replicate]
  · rw [if_neg ht]
    dsimp only
    by_cases htot : 0 < (children.map
        (fun kv => ops.powVisit cfg.temperature kv.2.visit_count)).sum
    · rw [if_pos htot]
      rw [length_foldl_set (fun kv => ops.powVisit cfg.temperature kv.2.visit_count /
        (children.map (fun kv => ops.powVisit cfg.temperature kv.2.visit_count)).sum),
        List.length_replicate]
    · rw [if_neg htot, List.length_replicate]

theorem searchOutput_getD_not_key (ops : FloatOps) (cfg : MCTSConfig)
    (actionSpace : ℕ) (children : List (ℕ × MCTSNode)) (i : ℕ)
    (hne : children ≠ []) (hi : i ∉ mctsKeys children) :
    (searchOutput ops cfg actionSpace children).getD i 0 = 0 := by
  unfold searchOutput
  by_cases ht : cfg.temperature = 0
  · rw [if_pos ht]
    have hmem := argmaxVisit_mem children hne
    rw [getD_set_ne_q _ _ _ _ (fun he => hi (by rw [← he]; exact hmem)),
      getD_replicate_zero]
  · rw [if_neg ht]
    dsimp only
    by_cases htot : 0 < (children.map
        (fun kv => ops.powVisit cfg.temperature kv.2.visit_count)).sum
    · rw [if_pos htot]
      rw [getD_foldl_set_not_mem (fun kv =>
        ops.powVisit cfg.temperature kv.2.visit_count /
          (children.map (fun kv => ops.powVisit cfg.temperature kv.2.visit_count)).sum)
        children _ i hi, getD_replicate_zero]
    · rw [if_neg htot, getD_replicate_zero]

theorem searchOutput_temp0_sum (ops : FloatOps) (cfg : MCTSConfig)
    (actionSpace : ℕ) (children : List (ℕ × MCTSNode))
    (ht : cfg.temperature = 0) (hne : children ≠ [])
    (hbound : ∀ k ∈ mctsKeys children, k < actionSpace) :
    (searchOutput ops cfg actionSpace children).sum = 1 := by
  unfold searchOutput
  rw [if_pos ht]
  have hmem := argmaxVisit_mem children hne
  have hlt : argmaxVisit children < actionSpace := hbound _ hmem
  rw [sum_set_of_getD_zero _ _ _ (by rw [List.length_replicate]; exact hlt)
    (getD_replicate_zero _ _)]
  rw [List.sum_replicate]
  simp

theorem searchOutput_zero_visits_sum (ops : FloatOps) (cfg : MCTSConfig)
    (actionSpace : ℕ) (children : List (ℕ × MCTSNode))
    (ht : ¬cfg.temperature = 0)
    (hpow0 : ops.powVisit cfg.temperature 0 = 0)
    (hz : ∀ kv ∈ children, (kv : ℕ × MCTSNode).2.visit_count = 0) :
    (searchOutput ops cfg actionSpace children).sum = 0 := by
  unfold searchOutput
  rw [if_neg ht]
  dsimp only
  have htot : (children.map
      (fun kv => ops.powVisit cfg.temperature kv.2.visit_count)).sum = 0 := by
    apply List.sum_eq_zero
    intro x hx
    obtain ⟨kv, hkv, he⟩ := List.mem_map.mp hx
    rw [← he, hz kv hkv, hpow0]
  rw [htot]
  rw [if_neg (by norm_num), List.sum_replicate]
  simp

theorem searchOutput_pos_visits_sum (ops : FloatOps) (cfg : MCTSConfig)
    (actionSpace : ℕ) (children : List (ℕ × MCTSNode))
    (ht : ¬cfg.temperature = 0)
    (hpow0 : ops.powVisit cfg.temperature 0 = 0)
    (hpowpos : ∀ n : ℕ, 0 < n → 0 < ops.powVisit cfg.temperature n)
    (hnd : (mctsKeys children).Nodup)
    (hbound : ∀ k ∈ mctsKeys children, k < actionSpace)
    (hvis : 0 < (children.map (fun kv => kv.2.visit_count)).sum) :
    (searchOutput ops cfg actionSpace children).sum = 1 := by
  unfold searchOutput
  rw [if_neg ht]
  dsimp only
  have hnonneg : ∀ x ∈ children.map
      (fun kv => ops.powVisit cfg.temperature kv.2.visit_count), 0 ≤ x := by
    intro x hx
    obtain ⟨kv, hkv, he⟩ := List.mem_map.mp hx
    rcases Nat.eq_zero_or_pos kv.2.visit_count with h0 | hp
    · rw [← he, h0, hpow0]
    · exact le_of_lt (he ▸ hpowpos _ hp)
  obtain ⟨kv0, hkv0, hkv0pos⟩ := exists_pos_of_sum_pos children hvis
  have htot : 0 < (children.map
      (fun kv => ops.powVisit cfg.temperature kv.2.visit_count)).sum := by
    refine sum_pos_of_mem_pos _ hnonneg
      (ops.powVisit cfg.temperature kv0.2.visit_count) ?_ (hpowpos _ hkv0pos)
    exact List.mem_map_of_mem _ hkv0
  rw [if_pos htot]
  rw [sum_foldl_set (fun kv => ops.powVisit cfg.temperature kv.2.visit_count /
      (children.map (fun kv => ops.powVisit cfg.temperature kv.2.visit_count)).sum)
    children _
    (fun kv hkv => by
      rw [List.length_replicate]
      exact hbound _ (List.mem_map_of_mem Prod.fst hkv))
    hnd
    (fun kv _ => getD_replicate_zero _ _)]
  rw [List.sum_replicate, sum_map_div_q _ (ne_of_gt htot)]
  rw [div_self (ne_of_gt htot)]
  simp

/-! ## C6: the MCTS output distribution -/

/-- C6 counterexample configuration: one simulation, temperature 0. -/
def mctsCfg0 : MCTSConfig := ⟨1, 7 / 5, 0, 3 / 10, 1 / 4⟩

/-- Identity stand-ins for the two irrational float operations
(`powVisit` is `n ** (1/1) = n`). -/
def mctsOpsId : FloatOps := ⟨fun q => q, fun _ n => (n : ℚ)⟩

/-- The default MCTS configuration (50 simulations, temperature 1). -/
def mctsCfgDefault : MCTSConfig := {}

/-- C6 counterexample: on a terminal animal-shogi state that still has a
legal move (the GOTE lion is captured but GOTE's chick can move), a
temperature-0 search puts probability 1 on the most-visited child, so the
output sums to 1, not 0 as the claim requires of terminal states. -/
theorem C6_mcts_counterexample :
    Animal.iface.isTerminal Animal.lionGoneState = true ∧
    Animal.iface.legalMoves Animal.lionGoneState ≠ [] ∧
    (search Animal.iface mctsOpsId mctsCfg0
      (fun _ => (fun _ => 0, 0)) [] Animal.lionGoneState).sum = 1 := by
  refine ⟨by decide, by decide, ?_⟩
  unfold search
  rw [if_neg (by decide)]
  have hne : Animal.iface.legalMoves Animal.lionGoneState ≠ [] := by decide
  have hspec := rootAfter_spec Animal.iface mctsOpsId mctsCfg0
    (fun _ => (fun _ => 0, 0)) [] Animal.lionGoneState hne
  refine searchOutput_temp0_sum _ _ _ _ rfl hspec.2.2.2.2 ?_
  intro k hk
  have hkl := (hspec.1 k).mp hk
  have : ∀ m ∈ Animal.iface.legalMoves Animal.lionGoneState,
      m < Animal.iface.actionSpace := by decide
  exact this k hkl

/-- C6 (amended): the `search` output has length `action_space_size` and
is zero at every index outside `legal_moves()`; it sums to 0 when no
legal move exists, and on terminal states whenever the temperature is
nonzero (all root children keep zero visits); with temperature 0 and at
least one legal move it is one-hot (sum 1) **whether or not the state is
terminal**; and on non-terminal states with a nonzero temperature and at
least one simulation it sums to exactly 1.  The weighting function
`visit ** (1/temperature)` is assumed to vanish at 0 and be positive on
positive counts, as the real power is for a positive temperature. -/
theorem C6_mcts_distribution {σ : Type} (g : GameIface σ) (ops : FloatOps)
    (cfg : MCTSConfig) (ev : σ → (ℕ → ℚ) × ℚ) (noise : List ℚ) (s : σ)
    (hbound : ∀ m ∈ g.legalMoves s, m < g.actionSpace)
    (hpow0 : ops.powVisit cfg.temperature 0 = 0)
    (hpowpos : ∀ n : ℕ, 0 < n → 0 < ops.powVisit cfg.temperature n) :
    (search g ops cfg ev noise s).length = g.actionSpace ∧
    (∀ i : ℕ, i ∉ g.legalMoves s → (search g ops cfg ev noise s).getD i 0 = 0) ∧
    (g.legalMoves s = [] → (search g ops cfg ev noise s).sum = 0) ∧
    (g.isTerminal s = true → cfg.temperature ≠ 0 →
      (search g ops cfg ev noise s).sum = 0) ∧
    (cfg.temperature = 0 → g.legalMoves s ≠ [] →
      (search g ops cfg ev noise s).sum = 1) ∧
    (g.isTerminal s = false → g.legalMoves s ≠ [] → cfg.temperature ≠ 0 →
      1 ≤ cfg.num_simulations → (search g ops cfg ev noise s).sum = 1) := by
  unfold search
  by_cases hempty : (g.legalMoves s).isEmpty = true
  · rw [if_pos hempty]
    have hleg : g.legalMoves s = [] := List.isEmpty_iff.mp hempty
    refine ⟨List.length_replicate _ _, ?_, ?_, ?_, ?_, ?_⟩
    · intro i _
      exact getD_replicate_zero _ _
    · intro _
      rw [List.sum_replicate]
      simp
    · intro _ _
      rw [List.sum_replicate]
      simp
    · intro _ hne
      exact absurd hleg hne
    · intro _ hne
      exact absurd hleg hne
  · rw [if_neg hempty]
    have hne : g.legalMoves s ≠ [] := by
      intro h
      exact hempty (by rw [h]; rfl)
    obtain ⟨hmem, hnd, hvis0, hvisN, hchne⟩ :=
      rootAfter_spec g ops cfg ev noise s hne
    have hkb : ∀ k ∈ mctsKeys (rootAfter g ops cfg ev noise s).children,
        k < g.actionSpace := fun k hk => hbound k ((hmem k).mp hk)
    refine ⟨searchOutput_length _ _ _ _, ?_, ?_, ?_, ?_, ?_⟩
    · intro i hi
      exact searchOutput_getD_not_key _ _ _ _ i hchne
        (fun hk => hi ((hmem i).mp hk))
    · intro h
      exact absurd h hne
    · intro hterm htemp
      exact searchOutput_zero_visits_sum _ _ _ _ htemp hpow0 (hvis0 hterm)
    · intro htemp _
      exact searchOutput_temp0_sum _ _ _ _ htemp hchne hkb
    · intro hterm _ htemp hsims
      refine searchOutput_pos_visits_sum _ _ _ _ htemp hpow0 hpowpos hnd hkb ?_
      rw [hvisN hterm]
      omega

/-- C6 witness: the distribution theorem applied at the initial animal
position with the default configuration. -/
theorem C6_mcts_distribution_witness :
    Animal.iface.isTerminal Animal.State.initial = false ∧
    (search Animal.iface mctsOpsId mctsCfgDefault (fun _ => (fun _ => 0, 0)) []
      Animal.State.initial).length = 180 ∧
    (search Animal.iface mctsOpsId mctsCfgDefault (fun _ => (fun _ => 0, 0)) []
      Animal.State.initial).sum = 1 := by
  have h := C6_mcts_distribution Animal.iface mctsOpsId mctsCfgDefault
    (fun _ => (fun _ => 0, 0)) [] Animal.State.initial
    (by decide) (by norm_num [mctsOpsId]) (fun n hn => by
      have : (0 : ℚ) < (n : ℚ) := by exact_mod_cast hn
      simpa [mctsOpsId] using this)
  refine ⟨by decide, h.1, ?_⟩
  exact h.2.2.2.2.2 (by decide) (by decide) (by norm_num [mctsCfgDefault])
    (by norm_num [mctsCfgDefault])

/-! ## C8: hand contents along reachable games

Reachability by legal moves, for each variant, and the hand invariants
(sortedness, and which kinds can enter a hand). -/

/-- `getD` after `set` at the written index. -/
theorem listGetD_set_self {α : Type} (l : List α) (i : ℕ) (x d : α) (h : i < l.length) :
    (l.set i x).getD i d = x := by
  rw [List.getD_eq_getElem?_getD, List.getElem?_set_self h]
  rfl

/-- `getD` after `set` at another index. -/
theorem listGetD_set_ne {α : Type} (l : List α) (i j : ℕ) (x d : α) (h : i ≠ j) :
    (l.set i x).getD j d = l.getD j d := by
  rw [List.getD_eq_getElem?_getD, List.getElem?_set_ne h, ← List.getD_eq_getElem?_getD]

/-- Erasing from a sorted list keeps it sorted (erasure is a sublist). -/
theorem sorted_erase_of_sorted {α : Type} [DecidableEq α] {r : α → α → Prop}
    {l : List α} (a : α) (h : List.Sorted r l) : List.Sorted r (l.erase a) :=
  List.Pairwise.sublist (List.erase_sublist a l) h

/-- `findIdx?` returns the unique index satisfying the predicate when the
predicate holds at most once. -/
theorem findIdx_unique {α : Type} (p : α → Bool) :
    ∀ (l : List α) (i : ℕ) (h : i < l.length), p (l.get ⟨i, h⟩) = true →
      l.countP p ≤ 1 → ∀ s, l.findIdx? p s = some (s + i) := by
  intro l
  induction l with
  | nil => intro i h; exact absurd h (by simp)
  | cons x xs ih =>
    intro i h hpi hcount s
    rw [List.findIdx?_cons]
    cases i with
    | zero =>
      simp only [List.get] at hpi
      rw [if_pos hpi]
      simp
    | succ j =>
      have hj : j < xs.length := by simpa using h
      have hpj : p (xs.get ⟨j, hj⟩) = true := hpi
      have hx : p x = false := by
        by_contra hx'
        have hx2 : p x = true := by simpa using hx'
        have h1 : 0 < xs.countP p :=
          List.countP_pos.mpr ⟨xs.get ⟨j, hj⟩, List.get_mem xs j hj, hpj⟩
        rw [List.countP_cons, if_pos hx2] at hcount
        omega
      rw [if_neg (by simp [hx])]
      have hrec := ih j hj hpj (by rw [List.countP_cons] at hcount; omega) (s + 1)
      rw [hrec]
      congr 1
      omega

/-- The animal hand order is total. -/
instance instIsTotalAnimalVal :
    IsTotal Animal.PieceType (fun a b => a.val ≤ b.val) :=
  ⟨fun a b => Nat.le_total a.val b.val⟩

/-- The animal hand order is transitive. -/
instance instIsTransAnimalVal :
    IsTrans Animal.PieceType (fun a b => a.val ≤ b.val) :=
  ⟨fun _ _ _ => Nat.le_trans⟩

/-- The full-shogi hand order is total. -/
instance instIsTotalFullVal :
    IsTotal Full.PieceType (fun a b => a.val ≤ b.val) :=
  ⟨fun a b => Nat.le_total a.val b.val⟩

/-- The full-shogi hand order is transitive. -/
instance instIsTransFullVal :
    IsTrans Full.PieceType (fun a b => a.val ≤ b.val) :=
  ⟨fun _ _ _ => Nat.le_trans⟩

/-- `list.sort()` leaves the hand sorted (animal). -/
theorem Animal.sortHand_sorted (h : List Animal.PieceType) :
    List.Sorted (fun a b => Animal.PieceType.val a ≤ Animal.PieceType.val b)
      (Animal.sortHand h) :=
  List.sorted_insertionSort _ h

/-- Sorting is a permutation, so membership is unchanged (animal). -/
theorem Animal.mem_sortHand {x : Animal.PieceType} {h : List Animal.PieceType} :
    x ∈ Animal.sortHand h ↔ x ∈ h :=
  (List.perm_insertionSort _ h).mem_iff

/-- `list.sort()` leaves the hand sorted (full). -/
theorem Full.full_sortHand_sorted (h : List Full.PieceType) :
    List.Sorted (fun a b => Full.PieceType.val a ≤ Full.PieceType.val b)
      (Full.sortHand h) :=
  List.sorted_insertionSort _ h

/-- Sorting is a permutation, so membership is unchanged (full). -/
theorem Full.full_mem_sortHand {x : Full.PieceType} {h : List Full.PieceType} :
    x ∈ Full.sortHand h ↔ x ∈ h :=
  (List.perm_insertionSort _ h).mem_iff

/-- Animal boards reachable from the initial position by legal moves. -/
inductive Animal.Reach : Animal.Board → Player → Prop where
  | init : Animal.Reach Animal.initialBoard .sente
  | step {b : Animal.Board} {p : Player} {m : ℕ} :
      Animal.Reach b p → m ∈ Animal.legal_moves b p →
      Animal.Reach (Animal.apply_move b p m) p.opponent

/-- The animal hand invariant: no HEN, and each hand sorted by kind value. -/
def Animal.HandsOK (b : Animal.Board) : Prop :=
  ∀ q : Player,
    (∀ pt ∈ b.handOf q, pt ≠ Animal.PieceType.hen) ∧
    List.Sorted (fun a c => Animal.PieceType.val a ≤ Animal.PieceType.val c)
      (b.handOf q)

/-- `set_piece` does not touch the hands (animal). -/
theorem Animal.handOf_set_piece (b : Animal.Board) (r c : ℕ)
    (x : Option Animal.Piece) (q : Player) :
    (b.set_piece r c x).handOf q = b.handOf q := by
  cases q <;> rfl

/-- The mover's hand after `add_to_hand` (animal). -/
theorem Animal.handOf_add_to_hand_self (b : Animal.Board) (p : Player)
    (k : Animal.PieceType) :
    (b.add_to_hand p k).handOf p =
      Animal.sortHand (b.handOf p ++ [if k = .hen then .chick else k]) := by
  cases p <;> rfl

/-- The other hand after `add_to_hand` (animal). -/
theorem Animal.handOf_add_to_hand_ne (b : Animal.Board) (p : Player)
    (k : Animal.PieceType) (q : Player) (h : q ≠ p) :
    (b.add_to_hand p k).handOf q = b.handOf q := by
  cases p <;> cases q <;> first | rfl | exact absurd rfl h

/-- The mover's hand after `remove_from_hand` (animal). -/
theorem Animal.handOf_remove_self (b : Animal.Board) (p : Player)
    (k : Animal.PieceType) :
    (b.remove_from_hand p k).handOf p = (b.handOf p).erase k := by
  cases p <;> rfl

/-- The other hand after `remove_from_hand` (animal). -/
theorem Animal.handOf_remove_ne (b : Animal.Board) (p : Player)
    (k : Animal.PieceType) (q : Player) (h : q ≠ p) :
    (b.remove_from_hand p k).handOf q = b.handOf q := by
  cases p <;> cases q <;> first | rfl | exact absurd rfl h

/-- Every animal move (legal or not) preserves the hand invariant: captures
go through `add_to_hand` (which sorts and normalises HEN) and drops through
`remove_from_hand` (erasure from a sorted list). -/
theorem Animal.handsOK_apply (b : Animal.Board) (p : Player) (m : ℕ)
    (hb : Animal.HandsOK b) : Animal.HandsOK (Animal.apply_move b p m) := by
  unfold Animal.apply_move
  split
  · -- board move
    unfold Animal.apply_board_move
    dsimp only
    split
    · exact hb
    · rename_i piece hpiece
      intro q
      rw [Animal.handOf_set_piece, Animal.handOf_set_piece]
      split
      · rename_i target htarget
        by_cases hq : q = p
        · subst hq
          rw [Animal.handOf_add_to_hand_self]
          constructor
          · intro pt hpt
            rw [Animal.mem_sortHand, List.mem_append] at hpt
            rcases hpt with hpt | hpt
            · exact (hb q).1 pt hpt
            · rw [List.mem_singleton] at hpt
              subst hpt
              split
              · exact fun hcontra => by cases hcontra
              · rename_i hne
                intro hcontra
                exact hne hcontra
          · exact Animal.sortHand_sorted _
        · rw [Animal.handOf_add_to_hand_ne _ _ _ _ hq]
          exact hb q
      · exact hb q
  · -- drop move
    unfold Animal.apply_drop_move
    dsimp only
    intro q
    rw [Animal.handOf_set_piece]
    by_cases hq : q = p
    · subst hq
      rw [Animal.handOf_remove_self]
      exact ⟨fun pt hpt => (hb q).1 pt (List.mem_of_mem_erase hpt),
        sorted_erase_of_sorted _ (hb q).2⟩
    · rw [Animal.handOf_remove_ne _ _ _ _ hq]
      exact hb q

/-- The initial animal board has empty (hence invariant-satisfying) hands. -/
theorem Animal.handsOK_init : Animal.HandsOK Animal.initialBoard := by
  intro q
  cases q <;> exact ⟨fun pt hpt => absurd hpt (List.not_mem_nil pt), List.sorted_nil⟩

/-- Every reachable animal board satisfies the hand invariant. -/
theorem Animal.reach_hands {b : Animal.Board} {p : Player}
    (h : Animal.Reach b p) : Animal.HandsOK b := by
  induction h with
  | init => exact Animal.handsOK_init
  | step _ _ ih => exact Animal.handsOK_apply _ _ _ ih

/-- Full boards reachable from the initial position by legal moves. -/
inductive Full.Reach : Full.Board → Player → Prop where
  | init : Full.Reach Full.initialBoard .sente
  | step {b : Full.Board} {p : Player} {m : ℕ} :
      Full.Reach b p → m ∈ Full.legal_moves b p →
      Full.Reach (Full.apply_move b p m) p.opponent

/-- The square predicate `find_king` scans with. -/
def Full.kingPred (q : Player) : Option Full.Piece → Bool
  | some piece => piece.piece_type = Full.PieceType.king && piece.owner = q
  | none => false

/-- `find_king` is a `findIdx?` over `kingPred`. -/
theorem Full.find_king_eq (b : Full.Board) (q : Player) :
    b.find_king q = b.squares.findIdx? (Full.kingPred q) := rfl

/-- The reachability invariant for full shogi: 81 squares, hands made of
droppable kinds only and sorted, exactly one king per player, and the
player who just moved not in check. -/
def Full.Inv (b : Full.Board) (p : Player) : Prop :=
  b.squares.length = 81 ∧
  (∀ q : Player, ∀ pt ∈ b.handOf q, pt ∈ Full.HAND_PIECE_TYPES) ∧
  (∀ q : Player,
    List.Sorted (fun a c => Full.PieceType.val a ≤ Full.PieceType.val c)
      (b.handOf q)) ∧
  (∀ q : Player, b.squares.countP (Full.kingPred q) = 1) ∧
  Full.is_in_check b p.opponent = false

/-- Unpromoting any non-king kind lands in the droppable list. -/
theorem Full.unpromote_mem_hand {k : Full.PieceType} (h : k ≠ .king) :
    Full.unpromote k ∈ Full.HAND_PIECE_TYPES := by
  cases k <;> first | exact absurd rfl h | decide

/-- No droppable kind is the king. -/
theorem Full.hand_kind_ne_king {k : Full.PieceType}
    (h : k ∈ Full.HAND_PIECE_TYPES) : k ≠ .king := by
  intro he
  subst he
  exact absurd h (by decide)

/-- The codec index of a droppable kind is below 7. -/
theorem Full.handIndex_lt {pt : Full.PieceType}
    (h : pt ∈ Full.HAND_PIECE_TYPES) : Full.handIndex pt < 7 := by
  fin_cases h <;> decide

/-- Decoding recovers a droppable kind from its codec index. -/
theorem Full.getD_handIndex {pt : Full.PieceType}
    (h : pt ∈ Full.HAND_PIECE_TYPES) :
    Full.HAND_PIECE_TYPES.getD (Full.handIndex pt) .pawn = pt := by
  fin_cases h <;> rfl

/-- `set_piece` does not touch the hands (full). -/
theorem Full.full_handOf_set_piece (b : Full.Board) (r c : ℕ)
    (x : Option Full.Piece) (q : Player) :
    (b.set_piece r c x).handOf q = b.handOf q := by
  cases q <;> rfl

/-- `set_piece` rewrites the square list (full). -/
theorem Full.squares_set_piece (b : Full.Board) (r c : ℕ)
    (x : Option Full.Piece) :
    (b.set_piece r c x).squares = b.squares.set (r * Full.COLS + c) x := rfl

/-- `add_to_hand` does not touch the squares (full). -/
theorem Full.squares_add_to_hand (b : Full.Board) (p : Player)
    (k : Full.PieceType) : (b.add_to_hand p k).squares = b.squares := by
  cases p <;> rfl

/-- The mover's hand after `add_to_hand` (full). -/
theorem Full.full_handOf_add_to_hand_self (b : Full.Board) (p : Player)
    (k : Full.PieceType) :
    (b.add_to_hand p k).handOf p =
      Full.sortHand (b.handOf p ++ [Full.unpromote k]) := by
  cases p <;> rfl

/-- The other hand after `add_to_hand` (full). -/
theorem Full.full_handOf_add_to_hand_ne (b : Full.Board) (p : Player)
    (k : Full.PieceType) (q : Player) (h : q ≠ p) :
    (b.add_to_hand p k).handOf q = b.handOf q := by
  cases p <;> cases q <;> first | rfl | exact absurd rfl h

/-- `remove_from_hand` does not touch the squares (full). -/
theorem Full.squares_remove_from_hand (b : Full.Board) (p : Player)
    (k : Full.PieceType) : (b.remove_from_hand p k).squares = b.squares := by
  cases p <;> rfl

/-- The mover's hand after `remove_from_hand` (full). -/
theorem Full.full_handOf_remove_self (b : Full.Board) (p : Player)
    (k : Full.PieceType) :
    (b.remove_from_hand p k).handOf p = (b.handOf p).erase k := by
  cases p <;> rfl

/-- The other hand after `remove_from_hand` (full). -/
theorem Full.full_handOf_remove_ne (b : Full.Board) (p : Player)
    (k : Full.PieceType) (q : Player) (h : q ≠ p) :
    (b.remove_from_hand p k).handOf q = b.handOf q := by
  cases p <;> cases q <;> first | rfl | exact absurd rfl h

/-- A generated move's target square is empty or holds an enemy piece. -/
def Full.targetOK (b : Full.Board) (p : Player) (t : ℕ) : Prop :=
  ∀ tgt : Full.Piece, b.squares.getD t none = some tgt → tgt.owner ≠ p

/-- Every emission of `_add_move_with_promotion` encodes the given
origin/target pair, promoting or not. -/
theorem Full.mem_addMoveWithPromotion {m f t : ℕ} {pt : Full.PieceType}
    {p : Player} {r tr : ℕ}
    (h : m ∈ Full.addMoveWithPromotion f t pt p r tr) :
    m = Full.encode_board_move f t true ∨ m = Full.encode_board_move f t false := by
  unfold Full.addMoveWithPromotion at h
  dsimp only at h
  split at h
  · split at h
    · simp only [List.mem_singleton] at h
      exact Or.inl h
    · simp only [List.mem_cons, List.mem_singleton, List.not_mem_nil, or_false] at h
      exact h
  · split at h
    · simp only [List.mem_singleton] at h
      exact Or.inr h
    · exact absurd h (List.not_mem_nil m)

/-- Shape of a one-delta step emission: an in-range target reached by the
delta, not occupied by the mover. -/
theorem Full.mem_stepEmit {b : Full.Board} {p : Player} {idx : ℕ}
    {pt : Full.PieceType} {d : ℤ × ℤ} {m : ℕ}
    (h : m ∈ Full.stepEmit b p idx pt d) :
    ∃ t, t < 81 ∧
      (m = Full.encode_board_move idx t true ∨ m = Full.encode_board_move idx t false) ∧
      Full.targetOK b p t ∧
      ((idx / Full.COLS : ℕ) : ℤ) + (if p = .gote then -d.1 else d.1) =
        ((t / Full.COLS : ℕ) : ℤ) ∧
      ((idx % Full.COLS : ℕ) : ℤ) + d.2 = ((t % Full.COLS : ℕ) : ℤ) := by
  unfold Full.stepEmit at h
  dsimp only at h
  generalize hdr : (if p = Player.gote then -d.1 else d.1) = dr at h ⊢
  split at h
  · rename_i hb
    split at h
    · rename_i target hsome
      split at h
      · exact absurd h (List.not_mem_nil m)
      · rename_i hown
        have henc := Full.mem_addMoveWithPromotion h
        refine ⟨_, ?_, henc, ?_, ?_, ?_⟩
        · simp only [Full.COLS, Full.ROWS] at hb ⊢
          omega
        · intro tgt htgt
          unfold Full.Board.piece_at at hsome
          rw [hsome] at htgt
          injection htgt with he
          subst he
          exact hown
        · simp only [Full.COLS, Full.ROWS] at hb ⊢
          omega
        · simp only [Full.COLS, Full.ROWS] at hb ⊢
          omega
    · rename_i hnone
      have henc := Full.mem_addMoveWithPromotion h
      refine ⟨_, ?_, henc, ?_, ?_, ?_⟩
      · simp only [Full.COLS, Full.ROWS] at hb ⊢
        omega
      · intro tgt htgt
        unfold Full.Board.piece_at at hnone
        rw [hnone] at htgt
        cases htgt
      · simp only [Full.COLS, Full.ROWS] at hb ⊢
        omega
      · simp only [Full.COLS, Full.ROWS] at hb ⊢
        omega
  · exact absurd h (List.not_mem_nil m)

/-- Shape of a one-delta horse/dragon extra-step emission. -/
theorem Full.mem_extraEmit {b : Full.Board} {p : Player} {idx : ℕ}
    {d : ℤ × ℤ} {m : ℕ}
    (h : m ∈ Full.extraEmit b p idx d) :
    ∃ t, t < 81 ∧
      m = Full.encode_board_move idx t false ∧
      Full.targetOK b p t ∧
      ((idx / Full.COLS : ℕ) : ℤ) + (if p = .gote then -d.1 else d.1) =
        ((t / Full.COLS : ℕ) : ℤ) ∧
      ((idx % Full.COLS : ℕ) : ℤ) + d.2 = ((t % Full.COLS : ℕ) : ℤ) := by
  unfold Full.extraEmit at h
  dsimp only at h
  generalize hdr : (if p = Player.gote then -d.1 else d.1) = dr at h ⊢
  split at h
  · rename_i hb
    split at h
    · rename_i target hsome
      split at h
      · exact absurd h (List.not_mem_nil m)
      · rename_i hown
        rw [List.mem_singleton] at h
        refine ⟨_, ?_, h, ?_, ?_, ?_⟩
        · simp only [Full.COLS, Full.ROWS] at hb ⊢
          omega
        · intro tgt htgt
          unfold Full.Board.piece_at at hsome
          rw [hsome] at htgt
          injection htgt with he
          subst he
          exact hown
        · simp only [Full.COLS, Full.ROWS] at hb ⊢
          omega
        · simp only [Full.COLS, Full.ROWS] at hb ⊢
          omega
    · rename_i hnone
      rw [List.mem_singleton] at h
      refine ⟨_, ?_, h, ?_, ?_, ?_⟩
      · simp only [Full.COLS, Full.ROWS] at hb ⊢
        omega
      · intro tgt htgt
        unfold Full.Board.piece_at at hnone
        rw [hnone] at htgt
        cases htgt
      · simp only [Full.COLS, Full.ROWS] at hb ⊢
        omega
      · simp only [Full.COLS, Full.ROWS] at hb ⊢
        omega
  · exact absurd h (List.not_mem_nil m)

/-- Shape of a slide emission: the walk to the emitted target square is an
attacking walk in the sense of `_attacks_square`. -/
theorem Full.mem_slideWalk {b : Full.Board} {p : Player} {idx : ℕ}
    {pt : Full.PieceType} {row : ℕ} {dr dc : ℤ} {m : ℕ} :
    ∀ (fuel : ℕ) (nr nc : ℤ), m ∈ Full.slideWalk b p idx pt row dr dc nr nc fuel →
      ∃ t, t < 81 ∧
        (m = Full.encode_board_move idx t true ∨ m = Full.encode_board_move idx t false) ∧
        Full.targetOK b p t ∧
        Full.attackSlideWalk b (t / Full.COLS) (t % Full.COLS) dr dc nr nc fuel = true := by
  intro fuel
  induction fuel with
  | zero =>
    intro nr nc h
    simp only [Full.slideWalk] at h
    exact absurd h (List.not_mem_nil m)
  | succ f ih =>
    intro nr nc h
    simp only [Full.slideWalk] at h
    split at h
    · rename_i hb
      split at h
      · rename_i target hsome
        split at h
        · exact absurd h (List.not_mem_nil m)
        · rename_i hown
          have henc := Full.mem_addMoveWithPromotion h
          refine ⟨_, ?_, henc, ?_, ?_⟩
          · simp only [Full.COLS, Full.ROWS] at hb ⊢
            omega
          · intro tgt htgt
            unfold Full.Board.piece_at at hsome
            rw [hsome] at htgt
            injection htgt with he
            subst he
            exact hown
          · have hcond : nr = (((nr.toNat * Full.COLS + nc.toNat) / Full.COLS : ℕ) : ℤ) ∧
                nc = (((nr.toNat * Full.COLS + nc.toNat) % Full.COLS : ℕ) : ℤ) := by
              constructor <;> (simp only [Full.COLS, Full.ROWS] at hb ⊢; omega)
            simp only [Full.attackSlideWalk]
            rw [if_pos hb, if_pos hcond]
      · rename_i hnone
        rw [List.mem_append] at h
        rcases h with h | h
        · have henc := Full.mem_addMoveWithPromotion h
          refine ⟨_, ?_, henc, ?_, ?_⟩
          · simp only [Full.COLS, Full.ROWS] at hb ⊢
            omega
          · intro tgt htgt
            have hnone' := hnone
            unfold Full.Board.piece_at at hnone'
            rw [hnone'] at htgt
            cases htgt
          · have hcond : nr = (((nr.toNat * Full.COLS + nc.toNat) / Full.COLS : ℕ) : ℤ) ∧
                nc = (((nr.toNat * Full.COLS + nc.toNat) % Full.COLS : ℕ) : ℤ) := by
              constructor <;> (simp only [Full.COLS, Full.ROWS] at hb ⊢; omega)
            simp only [Full.attackSlideWalk]
            rw [if_pos hb, if_pos hcond]
        · obtain ⟨t, ht, henc, hok, hwalk⟩ := ih (nr + dr) (nc + dc) h
          refine ⟨t, ht, henc, hok, ?_⟩
          simp only [Full.attackSlideWalk]
          rw [if_pos hb]
          by_cases hreach : nr = ((t / Full.COLS : ℕ) : ℤ) ∧ nc = ((t % Full.COLS : ℕ) : ℤ)
          · rw [if_pos hreach]
          · rw [if_neg hreach, if_neg (fun hcon => hcon hnone)]
            exact hwalk
    · exact absurd h (List.not_mem_nil m)

/-- Master generation-implies-attack lemma: every board move emitted for
the piece on `idx` targets an in-range square that is empty or enemy-held,
and the piece attacks that square in the sense of `_attacks_square`. -/
theorem Full.mem_boardMovesFrom {b : Full.Board} {p : Player} {idx : ℕ}
    {piece : Full.Piece} {m : ℕ}
    (h : m ∈ Full.boardMovesFrom b p idx piece) :
    ∃ t, t < 81 ∧
      (m = Full.encode_board_move idx t true ∨ m = Full.encode_board_move idx t false) ∧
      Full.targetOK b p t ∧
      Full.attacks_square b piece idx (t / Full.COLS) (t % Full.COLS) p = true := by
  unfold Full.boardMovesFrom at h
  dsimp only at h
  simp only [List.mem_append] at h
  rcases h with ((((h | h) | h) | h) | h)
  · obtain ⟨d, hd, hmem⟩ := List.mem_flatMap.mp h
    obtain ⟨t, ht, henc, hok, he1, he2⟩ := Full.mem_stepEmit hmem
    refine ⟨t, ht, henc, hok, ?_⟩
    unfold Full.attacks_square
    dsimp only
    simp only [Bool.or_eq_true, List.any_eq_true, Bool.and_eq_true, decide_eq_true_eq]
    exact Or.inl (Or.inl (Or.inl (Or.inl ⟨d, hd, he1, he2⟩)))
  · split at h
    · rename_i hk
      obtain ⟨d, hd, hmem⟩ := List.mem_flatMap.mp h
      obtain ⟨t, ht, henc, hok, he1, he2⟩ := Full.mem_stepEmit hmem
      refine ⟨t, ht, henc, hok, ?_⟩
      unfold Full.attacks_square
      dsimp only
      simp only [Bool.or_eq_true, List.any_eq_true, Bool.and_eq_true, decide_eq_true_eq]
      exact Or.inl (Or.inl (Or.inl (Or.inr ⟨hk, d, hd, he1, he2⟩)))
    · exact absurd h (List.not_mem_nil m)
  · obtain ⟨d, hd, hmem⟩ := List.mem_flatMap.mp h
    try dsimp only at hmem
    obtain ⟨t, ht, henc, hok, hwalk⟩ := Full.mem_slideWalk _ _ _ hmem
    refine ⟨t, ht, henc, hok, ?_⟩
    unfold Full.attacks_square
    dsimp only
    simp only [Bool.or_eq_true, List.any_eq_true, Bool.and_eq_true, decide_eq_true_eq]
    exact Or.inl (Or.inl (Or.inr ⟨d, hd, hwalk⟩))
  · split at h
    · rename_i hh
      obtain ⟨d, hd, hmem⟩ := List.mem_flatMap.mp h
      obtain ⟨t, ht, henc, hok, he1, he2⟩ := Full.mem_extraEmit hmem
      refine ⟨t, ht, Or.inr henc, hok, ?_⟩
      unfold Full.attacks_square
      dsimp only
      simp only [Bool.or_eq_true, List.any_eq_true, Bool.and_eq_true, decide_eq_true_eq]
      exact Or.inl (Or.inr ⟨hh, d, hd, he1, he2⟩)
    · exact absurd h (List.not_mem_nil m)
  · split at h
    · rename_i hh
      obtain ⟨d, hd, hmem⟩ := List.mem_flatMap.mp h
      obtain ⟨t, ht, henc, hok, he1, he2⟩ := Full.mem_extraEmit hmem
      refine ⟨t, ht, Or.inr henc, hok, ?_⟩
      unfold Full.attacks_square
      dsimp only
      simp only [Bool.or_eq_true, List.any_eq_true, Bool.and_eq_true, decide_eq_true_eq]
      exact Or.inr ⟨hh, d, hd, he1, he2⟩
    · exact absurd h (List.not_mem_nil m)

/-- Shape of `_generate_board_moves` membership: an own piece on an
in-range origin emitted the move. -/
theorem Full.mem_generate_board_moves {b : Full.Board} {p : Player} {m : ℕ}
    (h : m ∈ Full.generate_board_moves b p) :
    ∃ idx piece, idx < 81 ∧ b.squares.getD idx none = some piece ∧
      piece.owner = p ∧ m ∈ Full.boardMovesFrom b p idx piece := by
  unfold Full.generate_board_moves at h
  obtain ⟨idx, hidx, hmem⟩ := List.mem_flatMap.mp h
  rw [List.mem_range] at hidx
  have hidx81 : idx < 81 := by
    simp only [Full.NUM_SQUARES, Full.ROWS, Full.COLS] at hidx
    omega
  split at hmem
  · rename_i piece hpiece
    split at hmem
    · rename_i hown
      exact ⟨idx, piece, hidx81, hpiece, hown, hmem⟩
    · exact absurd hmem (List.not_mem_nil m)
  · exact absurd hmem (List.not_mem_nil m)

/-- Shape of `_generate_drop_moves` membership: a kind from the mover's
hand dropped on an in-range empty square. -/
theorem Full.mem_generate_drop_moves {b : Full.Board} {p : Player} {m : ℕ}
    (h : m ∈ Full.generate_drop_moves b p) :
    ∃ pt t, pt ∈ b.handOf p ∧ t < 81 ∧ b.squares.getD t none = none ∧
      m = Full.encode_drop_move pt t := by
  unfold Full.generate_drop_moves at h
  obtain ⟨pt, hpt, h1⟩ := List.mem_flatMap.mp h
  obtain ⟨t, ht, h2⟩ := List.mem_flatMap.mp h1
  rw [List.mem_range] at ht
  have ht81 : t < 81 := by
    simp only [Full.NUM_SQUARES, Full.ROWS, Full.COLS] at ht
    omega
  rw [List.mem_dedup] at hpt
  split at h2
  · exact absurd h2 (List.not_mem_nil m)
  · rename_i hocc
    dsimp only at h2
    split at h2
    · exact absurd h2 (List.not_mem_nil m)
    · split at h2
      · exact absurd h2 (List.not_mem_nil m)
      · split at h2
        · exact absurd h2 (List.not_mem_nil m)
        · rw [List.mem_singleton] at h2
          exact ⟨pt, t, hpt, ht81, not_not.mp hocc, h2⟩

/-- A player differing from `b` is `b`'s opponent. -/
theorem Player.eq_opponent_of_ne {a b : Player} (h : a ≠ b) : a = b.opponent := by
  cases a <;> cases b <;> first | rfl | exact absurd rfl h

/-- Nobody is their own opponent. -/
theorem Player.ne_opponent (p : Player) : p ≠ p.opponent := by
  cases p <;> decide

/-- Two players: every `q` is `p` or `p`'s opponent. -/
theorem Player.eq_or_eq_opponent (q p : Player) : q = p ∨ q = p.opponent := by
  cases q <;> cases p <;> first | exact Or.inl rfl | exact Or.inr rfl

/-- The kind placed on the destination square by `_apply_board_move`. -/
def Full.newType (pr : Bool) (k : Full.PieceType) : Full.PieceType :=
  if pr then
    match Full.PROMOTION_MAP k with
    | some promoted => promoted
    | none => k
  else k

/-- Promotion never creates or destroys a king. -/
theorem Full.newType_king_iff (pr : Bool) (k : Full.PieceType) :
    Full.newType pr k = .king ↔ k = .king := by
  cases pr <;> cases k <;> simp [Full.newType, Full.PROMOTION_MAP]

/-- If the mover attacks a square held by an enemy piece while the enemy
is not in check (and has exactly one king), that piece is not the king. -/
theorem Full.no_attack_on_king {b : Full.Board} {p : Player} {idx t : ℕ}
    {piece tgt : Full.Piece}
    (hchk : Full.is_in_check b p.opponent = false)
    (hkc : b.squares.countP (Full.kingPred p.opponent) = 1)
    (hlen : b.squares.length = 81)
    (hidx : idx < 81)
    (hp : b.squares.getD idx none = some piece)
    (hpo : piece.owner = p)
    (ht : t < 81)
    (htgt : b.squares.getD t none = some tgt)
    (hto : tgt.owner = p.opponent)
    (hatt : Full.attacks_square b piece idx (t / Full.COLS) (t % Full.COLS) p = true) :
    tgt.piece_type ≠ .king := by
  intro hk
  have ht' : t < b.squares.length := by omega
  have hsq : b.squares.get ⟨t, ht'⟩ = some tgt := by
    have hge := List.getD_eq_getElem b.squares none ht'
    rw [htgt] at hge
    exact hge.symm
  have hfind : b.squares.findIdx? (Full.kingPred p.opponent) = some t := by
    have h0 := findIdx_unique (Full.kingPred p.opponent) b.squares t ht'
      (by rw [hsq]; simp [Full.kingPred, hk, hto]) (le_of_eq hkc) 0
    simpa using h0
  rw [← Full.find_king_eq] at hfind
  unfold Full.is_in_check at hchk
  rw [hfind] at hchk
  dsimp only at hchk
  have hne : ¬ ((List.range Full.NUM_SQUARES).any (fun i =>
      match b.squares.getD i none with
      | some pc =>
        pc.owner = p.opponent.opponent &&
          Full.attacks_square b pc i (t / Full.COLS) (t % Full.COLS) p.opponent.opponent
      | none => false) = true) := by
    rw [hchk]
    simp
  apply hne
  rw [List.any_eq_true]
  refine ⟨idx, List.mem_range.mpr ?_, ?_⟩
  · simp only [Full.NUM_SQUARES, Full.ROWS, Full.COLS]
    omega
  · rw [hp]
    dsimp only
    rw [Player.opponent_opponent]
    simp [hpo, hatt]

/-- King counting across the two `set` writes of a board move: the middle
square holds no `q`-king, so the count changes only through the vacated
origin and the newly placed piece. -/
theorem Full.countP_after_move {s : List (Option Full.Piece)} {idx t : ℕ}
    (q : Player) (x : Option Full.Piece)
    (hlen : s.length = 81) (hidx : idx < 81) (ht : t < 81)
    (hmid : Full.kingPred q ((s.set idx none).getD t none) = false) :
    ((s.set idx none).set t x).countP (Full.kingPred q) +
      (if Full.kingPred q (s.getD idx none) then 1 else 0) =
    s.countP (Full.kingPred q) + (if Full.kingPred q x then 1 else 0) := by
  have h1 : idx < s.length := by omega
  have h2 : t < (s.set idx none).length := by rw [List.length_set]; omega
  rw [List.getD_eq_getElem s none h1]
  rw [List.getD_eq_getElem (s.set idx none) none h2] at hmid
  have e1 := List.countP_set (Full.kingPred q) s idx none h1
  have e2 := List.countP_set (Full.kingPred q) (s.set idx none) t x h2
  rw [hmid] at e2
  have hge : (if Full.kingPred q s[idx] = true then 1 else 0) ≤
      s.countP (Full.kingPred q) := by
    split
    · rename_i hpred
      exact List.countP_pos.mpr ⟨s[idx], List.getElem_mem h1, hpred⟩
    · omega
  have hkn : Full.kingPred q none = false := rfl
  rw [hkn] at e1
  simp only [Bool.false_eq_true, if_false] at e1 e2
  omega

/-- `_apply_board_move` on an encoded move with an occupied target:
capture into hand, vacate the origin, place the (possibly promoted)
piece. -/
theorem Full.apply_board_move_capture {b : Full.Board} {p : Player} {idx t : ℕ}
    (pr : Bool) {piece tgt : Full.Piece}
    (hidx : idx < 81) (ht : t < 81)
    (hp : b.squares.getD idx none = some piece)
    (htgt : b.squares.getD t none = some tgt) :
    Full.apply_board_move b p (Full.encode_board_move idx t pr) =
      ((b.add_to_hand p tgt.piece_type).set_piece (idx / Full.COLS) (idx % Full.COLS)
        none).set_piece (t / Full.COLS) (t % Full.COLS)
        (some ⟨Full.newType pr piece.piece_type, p⟩) := by
  cases pr
  · have he : Full.encode_board_move idx t false = idx * Full.NUM_SQUARES + t := rfl
    have hlt : ¬ (idx * Full.NUM_SQUARES + t ≥ Full.PROMO_MOVE_BASE) := by
      simp only [Full.NUM_SQUARES, Full.PROMO_MOVE_BASE, Full.ROWS, Full.COLS]
      omega
    have hdiv : (idx * Full.NUM_SQUARES + t) / Full.NUM_SQUARES = idx := by
      simp only [Full.NUM_SQUARES, Full.ROWS, Full.COLS]
      omega
    have hmod : (idx * Full.NUM_SQUARES + t) % Full.NUM_SQUARES = t := by
      simp only [Full.NUM_SQUARES, Full.ROWS, Full.COLS]
      omega
    unfold Full.apply_board_move
    rw [he]
    dsimp only
    rw [if_neg hlt, hdiv, hmod, hp]
    dsimp only
    rw [htgt]
    dsimp only
    rw [if_neg hlt]
    rfl
  · have he : Full.encode_board_move idx t true =
        Full.PROMO_MOVE_BASE + idx * Full.NUM_SQUARES + t := rfl
    have hge : Full.PROMO_MOVE_BASE + idx * Full.NUM_SQUARES + t ≥
        Full.PROMO_MOVE_BASE := by omega
    have hsub : Full.PROMO_MOVE_BASE + idx * Full.NUM_SQUARES + t -
        Full.PROMO_MOVE_BASE = idx * Full.NUM_SQUARES + t := by omega
    have hdiv : (idx * Full.NUM_SQUARES + t) / Full.NUM_SQUARES = idx := by
      simp only [Full.NUM_SQUARES, Full.ROWS, Full.COLS]
      omega
    have hmod : (idx * Full.NUM_SQUARES + t) % Full.NUM_SQUARES = t := by
      simp only [Full.NUM_SQUARES, Full.ROWS, Full.COLS]
      omega
    unfold Full.apply_board_move
    rw [he]
    dsimp only
    rw [if_pos hge, hsub, hdiv, hmod, hp]
    dsimp only
    rw [htgt]
    dsimp only
    rw [if_pos hge]
    rfl

/-- `_apply_board_move` on an encoded move with an empty target. -/
theorem Full.apply_board_move_nocapture {b : Full.Board} {p : Player} {idx t : ℕ}
    (pr : Bool) {piece : Full.Piece}
    (hidx : idx < 81) (ht : t < 81)
    (hp : b.squares.getD idx none = some piece)
    (htgt : b.squares.getD t none = none) :
    Full.apply_board_move b p (Full.encode_board_move idx t pr) =
      (b.set_piece (idx / Full.COLS) (idx % Full.COLS) none).set_piece
        (t / Full.COLS) (t % Full.COLS)
        (some ⟨Full.newType pr piece.piece_type, p⟩) := by
  cases pr
  · have he : Full.encode_board_move idx t false = idx * Full.NUM_SQUARES + t := rfl
    have hlt : ¬ (idx * Full.NUM_SQUARES + t ≥ Full.PROMO_MOVE_BASE) := by
      simp only [Full.NUM_SQUARES, Full.PROMO_MOVE_BASE, Full.ROWS, Full.COLS]
      omega
    have hdiv : (idx * Full.NUM_SQUARES + t) / Full.NUM_SQUARES = idx := by
      simp only [Full.NUM_SQUARES, Full.ROWS, Full.COLS]
      omega
    have hmod : (idx * Full.NUM_SQUARES + t) % Full.NUM_SQUARES = t := by
      simp only [Full.NUM_SQUARES, Full.ROWS, Full.COLS]
      omega
    unfold Full.apply_board_move
    rw [he]
    dsimp only
    rw [if_neg hlt, hdiv, hmod, hp]
    dsimp only
    rw [htgt]
    dsimp only
    rw [if_neg hlt]
    rfl
  · have he : Full.encode_board_move idx t true =
        Full.PROMO_MOVE_BASE + idx * Full.NUM_SQUARES + t := rfl
    have hge : Full.PROMO_MOVE_BASE + idx * Full.NUM_SQUARES + t ≥
        Full.PROMO_MOVE_BASE := by omega
    have hsub : Full.PROMO_MOVE_BASE + idx * Full.NUM_SQUARES + t -
        Full.PROMO_MOVE_BASE = idx * Full.NUM_SQUARES + t := by omega
    have hdiv : (idx * Full.NUM_SQUARES + t) / Full.NUM_SQUARES = idx := by
      simp only [Full.NUM_SQUARES, Full.ROWS, Full.COLS]
      omega
    have hmod : (idx * Full.NUM_SQUARES + t) % Full.NUM_SQUARES = t := by
      simp only [Full.NUM_SQUARES, Full.ROWS, Full.COLS]
      omega
    unfold Full.apply_board_move
    rw [he]
    dsimp only
    rw [if_pos hge, hsub, hdiv, hmod, hp]
    dsimp only
    rw [htgt]
    dsimp only
    rw [if_pos hge]
    rfl

/-- `apply_move` on an encoded board move dispatches below the drop base. -/
theorem Full.apply_move_board {b : Full.Board} {p : Player} {idx t : ℕ}
    (pr : Bool) (hidx : idx < 81) (ht : t < 81) :
    Full.apply_move b p (Full.encode_board_move idx t pr) =
      Full.apply_board_move b p (Full.encode_board_move idx t pr) := by
  unfold Full.apply_move
  rw [if_neg ?hlt]
  case hlt =>
    cases pr <;>
      (simp only [Full.encode_board_move, Full.DROP_MOVE_BASE, Full.PROMO_MOVE_BASE,
        Full.NUM_SQUARES, Full.ROWS, Full.COLS, Bool.false_eq_true, if_false, if_true]
       omega)

/-- `apply_move` on an encoded drop of a droppable kind removes the kind
from the mover's hand and places it on the (empty) target. -/
theorem Full.apply_move_drop {b : Full.Board} {p : Player} {pt : Full.PieceType}
    {t : ℕ} (hpt : pt ∈ Full.HAND_PIECE_TYPES) (ht : t < 81) :
    Full.apply_move b p (Full.encode_drop_move pt t) =
      (b.remove_from_hand p pt).set_piece (t / Full.COLS) (t % Full.COLS)
        (some ⟨pt, p⟩) := by
  have hi := Full.handIndex_lt hpt
  have he : Full.encode_drop_move pt t =
      Full.DROP_MOVE_BASE + Full.handIndex pt * Full.NUM_SQUARES + t := rfl
  have hge : Full.DROP_MOVE_BASE + Full.handIndex pt * Full.NUM_SQUARES + t ≥
      Full.DROP_MOVE_BASE := by omega
  have hsub : Full.DROP_MOVE_BASE + Full.handIndex pt * Full.NUM_SQUARES + t -
      Full.DROP_MOVE_BASE = Full.handIndex pt * Full.NUM_SQUARES + t := by omega
  have hdiv : (Full.handIndex pt * Full.NUM_SQUARES + t) / Full.NUM_SQUARES =
      Full.handIndex pt := by
    simp only [Full.NUM_SQUARES, Full.ROWS, Full.COLS]
    omega
  have hmod : (Full.handIndex pt * Full.NUM_SQUARES + t) % Full.NUM_SQUARES = t := by
    simp only [Full.NUM_SQUARES, Full.ROWS, Full.COLS]
    omega
  unfold Full.apply_move
  rw [he, if_pos hge]
  unfold Full.apply_drop
  dsimp only
  rw [hsub, hdiv, hmod, Full.getD_handIndex hpt]

/-- The king count of `q` survives a board move: the origin is vacated and
the placed piece is a king exactly when the moved piece was. -/
theorem Full.king_count_after (b : Full.Board) (p q : Player)
    {idx t : ℕ} (pr : Bool) {piece : Full.Piece}
    (hlen : b.squares.length = 81) (hidx : idx < 81) (ht : t < 81)
    (hp : b.squares.getD idx none = some piece) (hpo : piece.owner = p)
    (hking : b.squares.countP (Full.kingPred q) = 1)
    (hmid : Full.kingPred q ((b.squares.set idx none).getD t none) = false) :
    ((b.squares.set idx none).set t
      (some ⟨Full.newType pr piece.piece_type, p⟩)).countP (Full.kingPred q) = 1 := by
  have hmain := Full.countP_after_move q
    (some ⟨Full.newType pr piece.piece_type, p⟩) hlen hidx ht hmid
  rw [hp, hking] at hmain
  rcases Player.eq_or_eq_opponent q p with hq | hq
  · subst hq
    have hiff := Full.newType_king_iff pr piece.piece_type
    by_cases hkk : piece.piece_type = .king
    · have h1 : Full.kingPred q (some piece) = true := by
        simp [Full.kingPred, hkk, hpo]
      have h2 : Full.kingPred q (some ⟨Full.newType pr piece.piece_type, q⟩) = true := by
        have hk2 : Full.newType pr piece.piece_type = .king := hiff.mpr hkk
        simp [Full.kingPred, hk2]
      rw [h1, h2] at hmain
      simpa using hmain
    · have h1 : Full.kingPred q (some piece) = false := by
        simp [Full.kingPred, hkk]
      have h2 : Full.kingPred q (some ⟨Full.newType pr piece.piece_type, q⟩) = false := by
        simp [Full.kingPred, hiff, hkk]
      rw [h1, h2] at hmain
      simpa using hmain
  · subst hq
    have h1 : Full.kingPred p.opponent (some piece) = false := by
      simp [Full.kingPred, hpo, Player.ne_opponent p]
    have h2 : Full.kingPred p.opponent
        (some ⟨Full.newType pr piece.piece_type, p⟩) = false := by
      simp [Full.kingPred, Player.ne_opponent p]
    rw [h1, h2] at hmain
    simpa using hmain

/-- One legal full-shogi move preserves the reachability invariant. -/
theorem Full.inv_step {b : Full.Board} {p : Player} {m : ℕ}
    (hInv : Full.Inv b p) (hm : m ∈ Full.legal_moves b p) :
    Full.Inv (Full.apply_move b p m) p.opponent := by
  obtain ⟨hlen, hhand, hsort, hking, hchk⟩ := hInv
  unfold Full.legal_moves at hm
  rw [List.mem_filter] at hm
  obtain ⟨hpseudo, hfilter⟩ := hm
  have hchk2 : Full.is_in_check (Full.apply_move b p m) p = false := by
    simpa using hfilter
  unfold Full.pseudo_legal_moves at hpseudo
  rw [List.mem_append] at hpseudo
  rcases hpseudo with hbm | hdm
  · obtain ⟨idx, piece, hidx, hp, hpo, hbf⟩ := Full.mem_generate_board_moves hbm
    obtain ⟨t, ht, henc, hok, hatt⟩ := Full.mem_boardMovesFrom hbf
    obtain ⟨pr, hmeq⟩ : ∃ pr : Bool, m = Full.encode_board_move idx t pr := by
      rcases henc with h | h
      · exact ⟨true, h⟩
      · exact ⟨false, h⟩
    subst hmeq
    rw [Full.apply_move_board pr hidx ht] at hchk2 ⊢
    have hidxeq : (idx / Full.COLS) * Full.COLS + idx % Full.COLS = idx := by
      simp only [Full.COLS]
      omega
    have hteq : (t / Full.COLS) * Full.COLS + t % Full.COLS = t := by
      simp only [Full.COLS]
      omega
    rcases hsq : b.squares.getD t none with _ | tgt
    · rw [Full.apply_board_move_nocapture pr hidx ht hp hsq] at hchk2 ⊢
      refine ⟨?_, ?_, ?_, ?_, ?_⟩
      · simp only [Full.squares_set_piece, List.length_set]
        exact hlen
      · intro q pt hpm
        rw [Full.full_handOf_set_piece, Full.full_handOf_set_piece] at hpm
        exact hhand q pt hpm
      · intro q
        rw [Full.full_handOf_set_piece, Full.full_handOf_set_piece]
        exact hsort q
      · intro q
        simp only [Full.squares_set_piece]
        rw [hidxeq, hteq]
        refine Full.king_count_after b p q pr hlen hidx ht hp hpo (hking q) ?_
        by_cases hti : t = idx
        · subst hti
          rw [listGetD_set_self _ _ _ _ (by rw [hlen]; exact ht)]
          rfl
        · rw [listGetD_set_ne _ _ _ _ _ (fun he => hti he.symm)]
          rw [hsq]
          rfl
      · rw [Player.opponent_opponent]
        exact hchk2
    · have hto : tgt.owner = p.opponent := Player.eq_opponent_of_ne (hok tgt hsq)
      have hnk : tgt.piece_type ≠ .king :=
        Full.no_attack_on_king hchk (hking p.opponent) hlen hidx hp hpo ht hsq hto hatt
      rw [Full.apply_board_move_capture pr hidx ht hp hsq] at hchk2 ⊢
      refine ⟨?_, ?_, ?_, ?_, ?_⟩
      · simp only [Full.squares_set_piece, List.length_set, Full.squares_add_to_hand]
        exact hlen
      · intro q pt hpm
        rw [Full.full_handOf_set_piece, Full.full_handOf_set_piece] at hpm
        rcases Player.eq_or_eq_opponent q p with hq | hq
        · subst hq
          rw [Full.full_handOf_add_to_hand_self] at hpm
          rw [Full.full_mem_sortHand, List.mem_append] at hpm
          rcases hpm with hpm | hpm
          · exact hhand _ pt hpm
          · rw [List.mem_singleton] at hpm
            subst hpm
            exact Full.unpromote_mem_hand hnk
        · subst hq
          rw [Full.full_handOf_add_to_hand_ne _ _ _ _ (Ne.symm (Player.ne_opponent p))] at hpm
          exact hhand _ pt hpm
      · intro q
        rw [Full.full_handOf_set_piece, Full.full_handOf_set_piece]
        rcases Player.eq_or_eq_opponent q p with hq | hq
        · subst hq
          rw [Full.full_handOf_add_to_hand_self]
          exact Full.full_sortHand_sorted _
        · subst hq
          rw [Full.full_handOf_add_to_hand_ne _ _ _ _ (Ne.symm (Player.ne_opponent p))]
          exact hsort _
      · intro q
        simp only [Full.squares_set_piece, Full.squares_add_to_hand]
        rw [hidxeq, hteq]
        refine Full.king_count_after b p q pr hlen hidx ht hp hpo (hking q) ?_
        by_cases hti : t = idx
        · subst hti
          rw [listGetD_set_self _ _ _ _ (by rw [hlen]; exact ht)]
          rfl
        · rw [listGetD_set_ne _ _ _ _ _ (fun he => hti he.symm)]
          rw [hsq]
          simp [Full.kingPred, hnk]
      · rw [Player.opponent_opponent]
        exact hchk2
  · obtain ⟨pt, t, hptm, ht, hempty, hmeq⟩ := Full.mem_generate_drop_moves hdm
    have hptH : pt ∈ Full.HAND_PIECE_TYPES := hhand p pt hptm
    subst hmeq
    rw [Full.apply_move_drop hptH ht] at hchk2 ⊢
    refine ⟨?_, ?_, ?_, ?_, ?_⟩
    · simp only [Full.squares_set_piece, List.length_set, Full.squares_remove_from_hand]
      exact hlen
    · intro q pt2 hpm
      rw [Full.full_handOf_set_piece] at hpm
      rcases Player.eq_or_eq_opponent q p with hq | hq
      · subst hq
        rw [Full.full_handOf_remove_self] at hpm
        exact hhand _ pt2 (List.mem_of_mem_erase hpm)
      · subst hq
        rw [Full.full_handOf_remove_ne _ _ _ _ (Ne.symm (Player.ne_opponent p))] at hpm
        exact hhand _ pt2 hpm
    · intro q
      rw [Full.full_handOf_set_piece]
      rcases Player.eq_or_eq_opponent q p with hq | hq
      · subst hq
        rw [Full.full_handOf_remove_self]
        exact sorted_erase_of_sorted _ (hsort _)
      · subst hq
        rw [Full.full_handOf_remove_ne _ _ _ _ (Ne.symm (Player.ne_opponent p))]
        exact hsort _
    · intro q
      simp only [Full.squares_set_piece, Full.squares_remove_from_hand]
      have hteq : (t / Full.COLS) * Full.COLS + t % Full.COLS = t := by
        simp only [Full.COLS]
        omega
      rw [hteq]
      have ht' : t < b.squares.length := by rw [hlen]; exact ht
      have e := List.countP_set (Full.kingPred q) b.squares t (some ⟨pt, p⟩) ht'
      have hgetd := List.getD_eq_getElem b.squares none ht'
      rw [hempty] at hgetd
      rw [← hgetd] at e
      have hnew : Full.kingPred q (some ⟨pt, p⟩) = false := by
        simp [Full.kingPred, Full.hand_kind_ne_king hptH]
      have hkn : Full.kingPred q none = false := rfl
      rw [hnew, hkn] at e
      simp only [Bool.false_eq_true, if_false] at e
      have hk := hking q
      omega
    · rw [Player.opponent_opponent]
      exact hchk2

/-- The initial full board satisfies the invariant. -/
theorem Full.inv_init : Full.Inv Full.initialBoard .sente := by
  refine ⟨by decide, ?_, ?_, ?_, by decide⟩
  · intro q pt hpt
    cases q <;> exact absurd hpt (List.not_mem_nil pt)
  · intro q
    cases q <;> exact List.sorted_nil
  · intro q
    cases q <;> decide

/-- Every reachable full board satisfies the invariant. -/
theorem Full.reach_inv {b : Full.Board} {p : Player} (h : Full.Reach b p) :
    Full.Inv b p := by
  induction h with
  | init => exact Full.inv_init
  | step _ hm ih => exact Full.inv_step ih hm

/-- The board after the SENTE chick on (2,1) captures the GOTE chick
on (1,1) (move 88 = 7 * 12 + 4). -/
def Animal.cb1 : Animal.Board := Animal.apply_move Animal.initialBoard .sente 88

/-- ... after GOTE advances the (0,0) giraffe to (1,0). -/
def Animal.cb2 : Animal.Board := Animal.apply_move Animal.cb1 .gote 3

/-- ... after the SENTE chick on (1,1) captures the GOTE lion on (0,1). -/
def Animal.cb3 : Animal.Board := Animal.apply_move Animal.cb2 .sente 49

/-- C8 counterexample: a board reachable in three legal animal-shogi moves
whose SENTE hand contains the LION — `add_to_hand` only normalises HEN, so
a captured royal piece enters the hand, contrary to the claim. -/
theorem C8_hand_counterexample :
    Animal.Reach Animal.cb3 Player.gote ∧
    Animal.PieceType.lion ∈ Animal.cb3.handOf .sente := by
  constructor
  · have h1 : (88 : ℕ) ∈ Animal.legal_moves Animal.initialBoard .sente := by decide
    have h2 : (3 : ℕ) ∈ Animal.legal_moves Animal.cb1 .gote := by decide
    have h3 : (49 : ℕ) ∈ Animal.legal_moves Animal.cb2 .sente := by decide
    exact Animal.Reach.step (Animal.Reach.step
      (Animal.Reach.step Animal.Reach.init h1) h2) h3
  · decide

/-- C8 (amended): along any legal game both hands stay sorted by kind
value; in full shogi a hand only ever holds the seven droppable base
kinds (never KING, never a promoted kind); in animal shogi a captured HEN
is normalised to CHICK so no hand ever holds HEN, but a captured LION is
appended as-is, so the royal-exclusion half of the original claim fails
for that variant. -/
theorem C8_hand_invariants :
    (∀ (b : Animal.Board) (p : Player), Animal.Reach b p →
      ∀ q : Player,
        (∀ pt ∈ b.handOf q, pt ≠ Animal.PieceType.hen) ∧
        List.Sorted (fun a c => Animal.PieceType.val a ≤ Animal.PieceType.val c)
          (b.handOf q)) ∧
    (∀ (b : Full.Board) (p : Player), Full.Reach b p →
      ∀ q : Player,
        (∀ pt ∈ b.handOf q, pt ∈ Full.HAND_PIECE_TYPES) ∧
        List.Sorted (fun a c => Full.PieceType.val a ≤ Full.PieceType.val c)
          (b.handOf q)) := by
  constructor
  · intro b p hreach q
    exact Animal.reach_hands hreach q
  · intro b p hreach q
    obtain ⟨_, hhand, hsort, _, _⟩ := Full.reach_inv hreach
    exact ⟨hhand q, hsort q⟩

/-- C8 witness: the invariant theorem applied at both initial boards. -/
theorem C8_hand_invariants_witness :
    (∀ pt ∈ Animal.initialBoard.handOf .sente, pt ≠ Animal.PieceType.hen) ∧
    (∀ pt ∈ Full.initialBoard.handOf .gote, pt ∈ Full.HAND_PIECE_TYPES) :=
  ⟨(C8_hand_invariants.1 Animal.initialBoard .sente Animal.Reach.init .sente).1,
   (C8_hand_invariants.2 Full.initialBoard .sente Full.Reach.init .gote).1⟩

end ShogiAI
